import Mathlib

/-!
Verification of the `dectree-rs` signature decision tree.

The Rust source (`src/lib.rs`) implements `SignatureDecisionTree<T>`:
a trie of `TreeNode`s over byte values, built by `add_signature` /
`add_choice` (an iterative work-stack insertion) and queried by
`get_signature` (a walk collecting terminal and matching pending
signatures, resolved by a stable sort on descending byte length).

Shallow embedding conventions:
* `u8` values are `Nat` (the Rust type system guarantees `< 256`;
  where that bound matters it appears as an explicit hypothesis);
  `i32` offsets are `Int`.
* The `Rc<RefCell<TreeNode>>` graph is embedded as a pure tree.  Every
  node of the Rust structure is reachable from the root by a unique
  path of child indices, nodes are mutated in place and never replaced,
  so the work-stack entries `(node, sig)` are embedded as `(path, sig)`
  pairs resolved against the current tree.
* A Rust panic (out-of-bounds index) is embedded as `none`; the
  embedding of a fallible computation returns `Option`.
* The iterative loops carry explicit fuel.  `add_choice` uses fuel
  `2 * bytes.length + 4` and `get_signature` uses fuel
  `maxRootLen + 2`; sufficiency of these bounds on trees reachable by
  the public API is proved below.
-/

namespace Dectree

/-- Embeds Rust `SignatureInfo<T> { bytes, masks, object }`. -/
structure SignatureInfo (T : Type) where
  bytes : List Nat
  masks : List Nat
  object : T
deriving Repr, DecidableEq

/-- Embeds Rust `TreeNode<T> { depth, subtree_signatures, choices, term }`.
`choices` is the 256-slot child vector (`vec![None; 256]` initially). -/
inductive TreeNode (T : Type) : Type where
  | mk (depth : Nat) (subtree_signatures : List (SignatureInfo T))
       (choices : List (Option (TreeNode T))) (term : List (SignatureInfo T))

namespace TreeNode

variable {T : Type}

def depth : TreeNode T → Nat
  | .mk d _ _ _ => d

def subtree_signatures : TreeNode T → List (SignatureInfo T)
  | .mk _ s _ _ => s

def choices : TreeNode T → List (Option (TreeNode T))
  | .mk _ _ c _ => c

def term : TreeNode T → List (SignatureInfo T)
  | .mk _ _ _ t => t

@[simp] theorem depth_mk (d : Nat) (s : List (SignatureInfo T)) (c : List (Option (TreeNode T)))
    (t : List (SignatureInfo T)) : (TreeNode.mk d s c t).depth = d := rfl

@[simp] theorem subtree_signatures_mk (d : Nat) (s : List (SignatureInfo T))
    (c : List (Option (TreeNode T))) (t : List (SignatureInfo T)) :
    (TreeNode.mk d s c t).subtree_signatures = s := rfl

@[simp] theorem choices_mk (d : Nat) (s : List (SignatureInfo T))
    (c : List (Option (TreeNode T))) (t : List (SignatureInfo T)) :
    (TreeNode.mk d s c t).choices = c := rfl

@[simp] theorem term_mk (d : Nat) (s : List (SignatureInfo T)) (c : List (Option (TreeNode T)))
    (t : List (SignatureInfo T)) : (TreeNode.mk d s c t).term = t := rfl

/-- Embeds `TreeNode::default()` except for the depth, which
`get_node` sets to `depth + 1` on creation (`TreeNode { depth: depth + 1,
..Default::default() }`). -/
def fresh (d : Nat) : TreeNode T :=
  .mk d [] (List.replicate 256 none) []

end TreeNode

variable {T : Type}

/-- Rust slice indexing at a (possibly negative) `i32`-derived index:
any out-of-range access, including a negative index cast to `usize`,
panics (`none`). -/
def idx? (l : List Nat) (i : Int) : Option Nat :=
  if i < 0 then none else l.get? i.toNat

/-- Embeds the body of `get_node`: fetch `choices[choice]`, materializing
`TreeNode { depth: depth + 1, ..Default::default() }` when the slot is
`None`.  Returns the updated choice vector; `none` on index panic. -/
def ensureChild (d : Nat) (cs : List (Option (TreeNode T))) (ch : Nat) :
    Option (List (Option (TreeNode T))) :=
  match cs.get? ch with
  | none => none
  | some (some _) => some cs
  | some none => some (cs.set ch (some (TreeNode.fresh (d + 1))))

/-- Embeds the `for sig in sigs.iter()` loop of the `siglen == 1` branch
of `add_choice`: for each signature, look up/create the child keyed by
`sig.bytes[depth]` and record the push `(child, sig)` in order. -/
def splitChildren (d : Nat) : List (SignatureInfo T) → List (Option (TreeNode T)) →
    Option (List (Option (TreeNode T)) × List (Nat × SignatureInfo T))
  | [], cs => some (cs, [])
  | s :: rest, cs =>
    match s.bytes.get? d with
    | none => none
    | some ch =>
      match ensureChild d cs ch with
      | none => none
      | some cs' =>
        match splitChildren d rest cs' with
        | none => none
        | some (cs'', ps) => some (cs'', (ch, s) :: ps)

/-- One pop of the `add_choice` work loop, acting on the popped node:
returns the updated node together with the pushes `(child byte, sig)`
in Rust push order. -/
def stepNode (n : TreeNode T) (sig : SignatureInfo T) :
    Option (TreeNode T × List (Nat × SignatureInfo T)) :=
  match n with
  | .mk d sigs cs tm =>
    if sig.bytes.length > d then
      let sigs' := sigs ++ [sig]
      if sigs.length = 0 then
        some (.mk d sigs' cs tm, [])
      else if sigs.length = 1 then
        match splitChildren d sigs' cs with
        | none => none
        | some (cs', ps) => some (.mk d sigs' cs' tm, ps)
      else
        match sig.bytes.get? d with
        | none => none
        | some ch =>
          match ensureChild d cs ch with
          | none => none
          | some cs' => some (.mk d sigs' cs' tm, [(ch, sig)])
    else
      some (.mk d sigs cs (tm ++ [sig]), [])

/-- Applies `stepNode` at the node addressed by `path`, rebuilding the
tree, and returns the pushes as root-relative paths. -/
def stepAt (n : TreeNode T) (path : List Nat) (sig : SignatureInfo T) :
    Option (TreeNode T × List (List Nat × SignatureInfo T)) :=
  match path with
  | [] =>
    match stepNode n sig with
    | none => none
    | some (n', ps) => some (n', ps.map fun p => ([p.1], p.2))
  | ch :: rest =>
    match n with
    | .mk d sigs cs tm =>
      match cs.get? ch with
      | none => none
      | some none => none
      | some (some child) =>
        match stepAt child rest sig with
        | none => none
        | some (child', ps) =>
          some (.mk d sigs (cs.set ch (some child')) tm,
                ps.map fun p => (ch :: p.1, p.2))

/-- Embeds the `while let Some((node, sig_info)) = node_info_list.pop()`
loop of `add_choice`.  The head of the list is the top of the Rust stack;
`stepAt`'s pushes are prepended in reverse so the last Rust push is
popped first.  `none` means fuel exhaustion or an index panic. -/
def addLoop : Nat → TreeNode T → List (List Nat × SignatureInfo T) → Option (TreeNode T)
  | _, t, [] => some t
  | 0, _, _ :: _ => none
  | fuel + 1, t, (p, s) :: rest =>
    match stepAt t p s with
    | none => none
    | some (t', ps) => addLoop fuel t' (ps.reverse ++ rest)

/-- Embeds `add_choice(signature_info, tree_node)` starting from the
stack `vec![(tree_node, signature_info)]`. -/
def add_choice (t : TreeNode T) (sig : SignatureInfo T) : Option (TreeNode T) :=
  addLoop (2 * sig.bytes.length + 4) t [([], sig)]

/-- Embeds Rust `SignatureDecisionTree<T> { base_node, sigs_dup }`;
the `HashMap<Vec<u8>, bool>` is embedded as its key list (the only
operations used are `contains_key` and `insert`). -/
structure SignatureDecisionTree (T : Type) where
  base_node : TreeNode T
  sigs_dup : List (List Nat)

/-- Embeds `SignatureDecisionTree::new()` / `default()`. -/
def SignatureDecisionTree.new : SignatureDecisionTree T :=
  ⟨.mk 0 [] (List.replicate 256 none) [], []⟩

/-- Embeds `add_signature(bytes, masks, val)`: mask defaulting,
duplicate suppression on the `[bytes, masks].concat()` key, then
`add_choice` on the base node. -/
def SignatureDecisionTree.add_signature [Inhabited T] (t : SignatureDecisionTree T)
    (bytes : List Nat) (masks : Option (List Nat)) (val : Option T) :
    Option (SignatureDecisionTree T) :=
  let masks := masks.getD (List.replicate bytes.length 0xff)
  let val := val.getD default
  let byte_key := bytes ++ masks
  if byte_key ∈ t.sigs_dup then some t
  else
    match add_choice t.base_node ⟨bytes, masks, val⟩ with
    | none => none
    | some root => some ⟨root, byte_key :: t.sigs_dup⟩

/-- Embeds the direct masked comparison of the `sigs.len() == 1` branch
of `get_signature`: `for i in depth..sbytes.len()` over the suffix
`sbytes.drop depth` carried as a list, with `i` the running index.
`some false` = `is_match = false`, `none` = index panic. -/
def checkLoop (buf : List Nat) (off : Int) (smasks : List Nat) :
    List Nat → Nat → Option Bool
  | [], _ => some true
  | sb :: rest, i =>
    if (buf.length : Int) ≤ off + i then some false
    else
      match idx? buf (off + i), smasks.get? i with
      | some b, some m =>
        if b &&& m ≠ sb then some false else checkLoop buf off smasks rest (i + 1)
      | _, _ => none

/-- The per-signature test of the branch scan of `get_signature`:
`some none` = this pending signature is skipped (buffer exhausted, or
its masked buffer byte differs from its byte at `depth`),
`some (some masked)` = it matches with masked byte `masked`,
`none` = index panic. -/
def scanStep (buf : List Nat) (off : Int) (d : Nat) (sig : SignatureInfo T) :
    Option (Option Nat) :=
  if (buf.length : Int) ≤ off + d then some none
  else
    match idx? buf (off + d), sig.masks.get? d, sig.bytes.get? d with
    | some b, some m, some sb =>
      if b &&& m = sb then some (some (b &&& m)) else some none
    | _, _, _ => none

/-- Embeds the `for sig in sigs.iter()` branch scan of `get_signature`:
follow `choices[masked]` for the first pending signature whose masked
buffer byte equals its byte at `depth`, never scanning further.
`some none` = no branch taken, `some (some c)` = walk continues at `c`,
`none` = index panic. -/
def chooseLoop (buf : List Nat) (off : Int) (d : Nat)
    (cs : List (Option (TreeNode T))) : List (SignatureInfo T) → Option (Option (TreeNode T))
  | [] => some none
  | sig :: rest =>
    match scanStep buf off d sig with
    | none => none
    | some none => chooseLoop buf off d cs rest
    | some (some masked) => cs.get? masked

/-- Embeds the walk loop of `get_signature`: collect `term` at every
visited node, then either run the single-signature comparison (leaf
accumulator) or the branch scan. -/
def getSigLoop (buf : List Nat) (off : Int) :
    Nat → TreeNode T → List (SignatureInfo T) → Option (List (SignatureInfo T))
  | 0, _, _ => none
  | fuel + 1, .mk d sigs cs tm, acc =>
    let acc := acc ++ tm
    match sigs with
    | [sig] =>
      match checkLoop buf off sig.masks (sig.bytes.drop d) d with
      | none => none
      | some true => some (acc ++ [sig])
      | some false => some acc
    | _ =>
      match chooseLoop buf off d cs sigs with
      | none => none
      | some none => some acc
      | some (some child) => getSigLoop buf off fuel child acc

/-- The stable insertion step of the final
`matches.sort_by(|a, b| b.bytes.len().cmp(&a.bytes.len()))`: descending
byte length, insertion before the first strictly shorter element. -/
def insertByLen (s : SignatureInfo T) : List (SignatureInfo T) → List (SignatureInfo T)
  | [] => [s]
  | x :: xs =>
    if x.bytes.length ≤ s.bytes.length then s :: x :: xs else x :: insertByLen s xs

/-- Stable sort by descending byte length; produces the same list as
Rust's stable `sort_by` with comparator `b.bytes.len().cmp(&a.bytes.len())`
(a stable sort's output is determined by the comparator). -/
def sortByLenDesc (l : List (SignatureInfo T)) : List (SignatureInfo T) :=
  l.foldr insertByLen []

/-- Longest byte length among a list of signatures. -/
def maxSigLen (R : List (SignatureInfo T)) : Nat :=
  R.foldr (fun s m => max s.bytes.length m) 0

/-- Longest pending byte length at the root; every signature pending
anywhere in a tree built by the API is also pending at the root, so
this bounds the walk depth.  Used as the walk fuel. -/
def maxRootLen (t : SignatureDecisionTree T) : Nat :=
  maxSigLen t.base_node.subtree_signatures

/-- The matches accumulated by the walk of `get_signature`. -/
def walkMatches (t : SignatureDecisionTree T) (buf : List Nat) (off : Int) :
    Option (List (SignatureInfo T)) :=
  getSigLoop buf off (maxRootLen t + 2) t.base_node []

/-- Embeds `get_signature(bytes, offset)`.  Outer `none` = panic,
`some none` = Rust `None`, `some (some v)` = Rust `Some(v)`. -/
def SignatureDecisionTree.get_signature (t : SignatureDecisionTree T)
    (buf : List Nat) (off? : Option Int) : Option (Option T) :=
  let off := off?.getD 0
  match walkMatches t buf off with
  | none => none
  | some ms =>
    if ms.isEmpty then some none
    else some ((sortByLenDesc ms).head?.map SignatureInfo.object)

/-- Embeds `is_signature(bytes, offset)` = `get_signature(...).is_some()`. -/
def SignatureDecisionTree.is_signature (t : SignatureDecisionTree T)
    (buf : List Nat) (off? : Option Int) : Option Bool :=
  (t.get_signature buf off?).map Option.isSome

/-! ### Specification-side definitions -/

/-- Specification-side resolution: the first element of the list whose
byte length is maximal (ties broken toward the earlier element). -/
def firstMax : List (SignatureInfo T) → Option (SignatureInfo T)
  | [] => none
  | x :: xs =>
    match firstMax xs with
    | none => some x
    | some y => if x.bytes.length < y.bytes.length then some y else some x

/-- The node of a tree addressed by a path of child byte values. -/
def nodeAt : TreeNode T → List Nat → Option (TreeNode T)
  | n, [] => some n
  | .mk _ _ cs _, ch :: rest =>
    match cs.get? ch with
    | some (some c) => nodeAt c rest
    | _ => none

/-- Replace the node addressed by `path` (no-op branches for invalid
paths, which never arise under the hypotheses used below). -/
def updAt : TreeNode T → List Nat → TreeNode T → TreeNode T
  | _, [], m => m
  | .mk d sigs cs tm, ch :: rest, m =>
    match cs.get? ch with
    | some (some c) => .mk d sigs (cs.set ch (some (updAt c rest m))) tm
    | _ => .mk d sigs cs tm

/-- `P` holds at a node and, hereditarily, at every materialized child. -/
inductive AllNodes (P : TreeNode T → Prop) : TreeNode T → Prop
  | intro (n : TreeNode T) (hn : P n)
      (hc : ∀ c ∈ n.choices, ∀ m, c = some m → AllNodes P m) : AllNodes P n

/-- Well-formedness of a registered signature as a `u8` record:
equal-length mask, byte values below 256. -/
def SigWF (s : SignatureInfo T) : Prop :=
  s.masks.length = s.bytes.length ∧ (∀ b ∈ s.bytes, b < 256) ∧ (∀ b ∈ s.masks, b < 256)

/-- Per-node invariant of trees built by the API, relative to the root's
pending list `R`: 256 child slots; every pending signature is strictly
longer than the node's depth and also pending at the root; a node with
at most one pending signature has no materialized children; every
materialized child is one level deeper. -/
def NodeOKR (R : List (SignatureInfo T)) (n : TreeNode T) : Prop :=
  n.choices.length = 256 ∧
  (∀ s ∈ n.subtree_signatures, n.depth < s.bytes.length ∧ s ∈ R) ∧
  (n.subtree_signatures.length ≤ 1 → ∀ c ∈ n.choices, c = none) ∧
  (∀ c ∈ n.choices, ∀ m, c = some m → m.depth = n.depth + 1)

/-- Global invariant of an index built by the API. -/
def GoodTree (t : SignatureDecisionTree T) : Prop :=
  AllNodes (NodeOKR t.base_node.subtree_signatures) t.base_node ∧
  (∀ s ∈ t.base_node.subtree_signatures, SigWF s) ∧
  t.base_node.depth = 0

/-- One `add_signature` call record: bytes, optional mask, optional payload. -/
abbrev Reg (T : Type) : Type := List Nat × Option (List Nat) × Option T

/-- A sequence of `add_signature` calls. -/
def applyRegs [Inhabited T] : SignatureDecisionTree T → List (Reg T) →
    Option (SignatureDecisionTree T)
  | t, [] => some t
  | t, r :: rest =>
    match t.add_signature r.1 r.2.1 r.2.2 with
    | none => none
    | some t' => applyRegs t' rest

/-- Well-formedness of one registration: `u8` bytes, and an explicitly
supplied mask has the bytes' length and `u8` entries. -/
def RegWF (r : Reg T) : Prop :=
  (∀ b ∈ r.1, b < 256) ∧
  match r.2.1 with
  | none => True
  | some m => m.length = r.1.length ∧ ∀ b ∈ m, b < 256

/-- The index is reachable from `new()` by well-formed registrations. -/
def BuiltWF [Inhabited T] (t : SignatureDecisionTree T) : Prop :=
  ∃ regs : List (Reg T), (∀ r ∈ regs, RegWF r) ∧
    applyRegs SignatureDecisionTree.new regs = some t

/-! ### Concrete scenarios (the seed test `tests::test_signature_subset`
and small trees used as witnesses) -/

def P1 : List Nat := [0x55, 0xe9, 0xd8, 0x01, 0xfe, 0xff, 0x32, 0x77, 0x89, 0x4f, 0x55]
def P2 : List Nat := P1.take 7
def P3 : List Nat := P1.take 4
def P4 : List Nat := P1 ++ [0xfe, 0x38]

/-- The registrations of the seed scenario, in order: `P1` (default
payload), `P2` with payload `P2`, `P3` with payload `P3`, `P4` with
payload `P4`. -/
def seedRegs : List (Reg (List Nat)) :=
  [(P1, none, none), (P2, none, some P2), (P3, none, some P3), (P4, none, some P4)]

/-- The index of the seed scenario. -/
def seedTree? : Option (SignatureDecisionTree (List Nat)) :=
  applyRegs SignatureDecisionTree.new seedRegs

def B1 : List Nat := [0x55, 0xe9, 0xd8, 0x01, 0xfe, 0xff, 0x32, 0x00, 0x99, 0x36, 0x5f, 0x21, 0xfd]
def B2 : List Nat := [0x55, 0xe9, 0xd8, 0x01, 0xfe, 0xff, 0x32]
def B3 : List Nat := [0x55, 0xe9, 0xd8, 0x01, 0xfe, 0x00]
def B4 : List Nat := [0x55]

/-- The seed index itself (the registration chain succeeds, as proved in
the C2 theorem; the default is never used). -/
def seedTree : SignatureDecisionTree (List Nat) :=
  seedTree?.getD SignatureDecisionTree.new

/-- The index holding exactly one registered pattern: a single pending
signature at the root and its duplicate key. -/
def singletonTree (bytes masks : List Nat) (v : T) : SignatureDecisionTree T :=
  ⟨.mk 0 [⟨bytes, masks, v⟩] (List.replicate 256 none) [], [bytes ++ masks]⟩

/-- The seed index after additionally registering the empty pattern. -/
def seedTreeE : SignatureDecisionTree (List Nat) :=
  (seedTree.add_signature [] none none).getD SignatureDecisionTree.new

/-! ### Resolution of matches: stable sort head versus first maximum -/

theorem head?_insertByLen (s : SignatureInfo T) (l : List (SignatureInfo T)) :
    (insertByLen s l).head? =
      some (match l with
            | [] => s
            | x :: _ => if x.bytes.length ≤ s.bytes.length then s else x) := by
  cases l with
  | nil => rfl
  | cons x xs =>
    simp only [insertByLen]
    split <;> simp

theorem head?_sortByLenDesc (l : List (SignatureInfo T)) :
    (sortByLenDesc l).head? = firstMax l := by
  induction l with
  | nil => rfl
  | cons x xs ih =>
    have hs : sortByLenDesc (x :: xs) = insertByLen x (sortByLenDesc xs) := rfl
    rw [hs, head?_insertByLen]
    cases hxs : sortByLenDesc xs with
    | nil =>
      have h0 : firstMax xs = none := by rw [← ih, hxs]; rfl
      simp [firstMax, h0]
    | cons y ys =>
      have h0 : firstMax xs = some y := by rw [← ih, hxs]; rfl
      simp only [firstMax, h0]
      by_cases hc : y.bytes.length ≤ x.bytes.length
      · rw [if_pos hc, if_neg (by omega)]
      · rw [if_neg hc, if_pos (by omega)]

/-- C1.  Whenever the walk completes without a panic, `get_signature`
returns the payload of the first accumulated match of maximal byte
length (`firstMax`): the longest matched pattern wins, ties go to the
match discovered first during the walk, and an empty match list yields
`None` (`firstMax [] = none`). -/
theorem c1_longest_match_wins (t : SignatureDecisionTree T) (buf : List Nat)
    (off? : Option Int) :
    t.get_signature buf off? =
      (walkMatches t buf (off?.getD 0)).map fun ms =>
        (firstMax ms).map SignatureInfo.object := by
  have hdef : t.get_signature buf off? =
      match walkMatches t buf (off?.getD 0) with
      | none => none
      | some ms =>
        if ms.isEmpty then some none
        else some ((sortByLenDesc ms).head?.map SignatureInfo.object) := rfl
  rw [hdef]
  cases hms : walkMatches t buf (off?.getD 0) with
  | none => rfl
  | some ms =>
    cases ms with
    | nil => rfl
    | cons m rest =>
      simp [head?_sortByLenDesc]

/-- C2.  The seed scenario: registering `P1` (default payload), `P2`
(payload `P2`), `P3` (payload `P3`), `P4` (payload `P4`) in order
succeeds, and `get_signature` at offset 0 returns `Some P2` on `B1`,
`Some P2` on `B2`, `Some P3` on `B3`, and `None` on `B4`. -/
theorem c2_seed_scenario :
    (seedTree?.map fun t =>
      [t.get_signature B1 none, t.get_signature B2 none,
       t.get_signature B3 none, t.get_signature B4 none]) =
    some [some (some P2), some (some P2), some (some P3), some none] := by
  decide

/-- C4.  Registering a `(bytes, mask)` pair whose concatenated key is
already in `sigs_dup` is a silent no-op: the call returns the index
unchanged (even with a different payload), so every subsequent lookup
result is unchanged. -/
theorem c4_duplicate_noop [Inhabited T] (t : SignatureDecisionTree T)
    (bytes : List Nat) (masks : Option (List Nat)) (val : Option T)
    (h : bytes ++ masks.getD (List.replicate bytes.length 0xff) ∈ t.sigs_dup) :
    t.add_signature bytes masks val = some t ∧
    ∀ buf off?, (t.add_signature bytes masks val).map
        (fun t' => t'.get_signature buf off?) = some (t.get_signature buf off?) := by
  have hadd : t.add_signature bytes masks val = some t := by
    unfold SignatureDecisionTree.add_signature
    simp [h]
  exact ⟨hadd, fun buf off? => by rw [hadd]; rfl⟩

/-- Witness for C4: in the seed tree, re-registering `P1` (default mask)
with a different payload is a no-op. -/
theorem c4_duplicate_noop_witness :
    seedTree.add_signature P1 none (some [0x99]) = some seedTree := by
  exact (c4_duplicate_noop seedTree P1 none (some [0x99]) (by decide)).1

/-! ### Basic list and loop lemmas -/

theorem get?_eq_some_getD : ∀ (l : List Nat) (k : Nat), k < l.length →
    l.get? k = some (l.getD k 0)
  | [], k, h => absurd h (by simp)
  | _ :: _, 0, _ => rfl
  | _ :: l, k + 1, h => get?_eq_some_getD l k (by simpa using h)

theorem idx?_nonneg (l : List Nat) (i : Int) (h : 0 ≤ i) :
    idx? l i = l.get? i.toNat := by
  unfold idx?
  rw [if_neg (by omega)]

theorem addLoop_nil (fuel : Nat) (t : TreeNode T) : addLoop fuel t [] = some t := by
  cases fuel <;> rfl

theorem addLoop_cons (fuel : Nat) (t : TreeNode T) (p : List Nat)
    (s : SignatureInfo T) (rest : List (List Nat × SignatureInfo T)) :
    addLoop (fuel + 1) t ((p, s) :: rest) =
      match stepAt t p s with
      | none => none
      | some (t', ps) => addLoop fuel t' (ps.reverse ++ rest) := rfl

/-- When the very first pop resolves without pushes, `add_choice` is that
single step. -/
theorem add_choice_single_step (n n' : TreeNode T) (sig : SignatureInfo T)
    (h : stepNode n sig = some (n', [])) : add_choice n sig = some n' := by
  unfold add_choice
  rw [show 2 * sig.bytes.length + 4 = (2 * sig.bytes.length + 3) + 1 from rfl, addLoop_cons]
  simp [stepAt, h, addLoop_nil]

/-- A pattern longer than the depth of a node with no pending signatures
is deferred: appended to `subtree_signatures`, nothing else changes. -/
theorem stepNode_defer (d : Nat) (cs : List (Option (TreeNode T)))
    (tm : List (SignatureInfo T)) (sig : SignatureInfo T)
    (h : d < sig.bytes.length) :
    stepNode (.mk d [] cs tm) sig = some (.mk d [sig] cs tm, []) := by
  simp [stepNode, h]

/-! ### The branch scan (C3) -/

theorem chooseLoop_all_skip (buf : List Nat) (off : Int) (d : Nat)
    (cs : List (Option (TreeNode T))) :
    ∀ sigs : List (SignatureInfo T),
      (∀ x ∈ sigs, scanStep buf off d x = some none) →
      chooseLoop buf off d cs sigs = some none := by
  intro sigs h
  induction sigs with
  | nil => rfl
  | cons x rest ih =>
    have hx := h x (List.mem_cons_self x rest)
    simp only [chooseLoop, hx]
    exact ih fun y hy => h y (List.mem_cons_of_mem x hy)

theorem chooseLoop_first_hit (buf : List Nat) (off : Int) (d : Nat)
    (cs : List (Option (TreeNode T))) (pre post : List (SignatureInfo T))
    (sig : SignatureInfo T) (masked : Nat)
    (hpre : ∀ x ∈ pre, scanStep buf off d x = some none)
    (hsig : scanStep buf off d sig = some (some masked)) :
    chooseLoop buf off d cs (pre ++ sig :: post) = cs.get? masked := by
  induction pre with
  | nil => simp only [List.nil_append, chooseLoop, hsig]
  | cons x pre' ih =>
    have hx := hpre x (List.mem_cons_self x pre')
    simp only [List.cons_append, chooseLoop, hx]
    exact ih fun y hy => hpre y (List.mem_cons_of_mem x hy)

theorem getSigLoop_stops (buf : List Nat) (off : Int) (d : Nat)
    (cs : List (Option (TreeNode T))) (sigs tm acc : List (SignatureInfo T)) (fuel : Nat)
    (hlen : sigs.length ≠ 1)
    (hstop : chooseLoop buf off d cs sigs = some none) :
    getSigLoop buf off (fuel + 1) (.mk d sigs cs tm) acc = some (acc ++ tm) := by
  match sigs, hlen with
  | [], _ => simp only [getSigLoop, hstop]
  | s₁ :: s₂ :: rest, _ => simp only [getSigLoop, hstop]

/-- C3.  At a branching node the scan tries the pending signatures in
insertion order: every signature before the first hit is skipped, the
first hit resolves the branch to `choices[masked]` no matter what comes
after it, a scan with no hit yields no branch, and a node (other than a
leaf accumulator) where the scan yields no branch — including an absent
resolved child — ends the walk with the matches collected so far. -/
theorem c3_first_match_wins_branch (buf : List Nat) (off : Int) (d : Nat)
    (cs : List (Option (TreeNode T))) (pre post : List (SignatureInfo T))
    (sig : SignatureInfo T) (masked : Nat)
    (hpre : ∀ x ∈ pre, scanStep buf off d x = some none)
    (hsig : scanStep buf off d sig = some (some masked)) :
    chooseLoop buf off d cs (pre ++ sig :: post) = cs.get? masked ∧
    (∀ sigs : List (SignatureInfo T),
      (∀ x ∈ sigs, scanStep buf off d x = some none) →
      chooseLoop buf off d cs sigs = some none) ∧
    (∀ (sigs tm acc : List (SignatureInfo T)) (fuel : Nat),
      sigs.length ≠ 1 →
      chooseLoop buf off d cs sigs = some none →
      getSigLoop buf off (fuel + 1) (.mk d sigs cs tm) acc = some (acc ++ tm)) :=
  ⟨chooseLoop_first_hit buf off d cs pre post sig masked hpre hsig,
   chooseLoop_all_skip buf off d cs,
   fun sigs tm acc fuel hlen hstop => getSigLoop_stops buf off d cs sigs tm acc fuel hlen hstop⟩

/-- Witness for C3: with buffer `[0x55]`, the pending pattern `[0x10]`
is skipped and the second pending pattern `[0x55]` resolves the branch
to slot `0x55` (which is empty here). -/
theorem c3_first_match_wins_branch_witness :
    chooseLoop [0x55] 0 0 (List.replicate 256 (none : Option (TreeNode Nat)))
      ([⟨[0x10], [0xff], 0⟩] ++ (⟨[0x55], [0xff], 1⟩ : SignatureInfo Nat) :: []) =
    (List.replicate 256 (none : Option (TreeNode Nat))).get? 0x55 :=
  (c3_first_match_wins_branch [0x55] 0 0 (List.replicate 256 none)
    [⟨[0x10], [0xff], 0⟩] [] ⟨[0x55], [0xff], 1⟩ 0x55
    (by decide) (by decide)).1

/-! ### The masked byte comparison (C5) -/

/-- Characterization of the leaf-accumulator comparison loop: it
succeeds exactly when every remaining position is inside the buffer and
the masked buffer byte equals the pattern byte there. -/
theorem checkLoop_true_iff (buf : List Nat) (off : Int) (hoff : 0 ≤ off)
    (smasks : List Nat) :
    ∀ (l : List Nat) (i : Nat), i + l.length ≤ smasks.length →
      (checkLoop buf off smasks l i = some true ↔
        ∀ j, j < l.length → off.toNat + i + j < buf.length ∧
          buf.getD (off.toNat + i + j) 0 &&& smasks.getD (i + j) 0 = l.getD j 0)
  | [], i, _ => by simp [checkLoop]
  | sb :: rest, i, hlen => by
    have hlen' : i < smasks.length ∧ (i + 1) + rest.length ≤ smasks.length := by
      simp only [List.length_cons] at hlen
      omega
    by_cases hg : (buf.length : Int) ≤ off + i
    · have hfail : checkLoop buf off smasks (sb :: rest) i = some false := by
        simp [checkLoop, hg]
      rw [hfail]
      constructor
      · intro h
        simp at h
      · intro h
        have h0 := (h 0 (by simp)).1
        omega
    · have hnat : off.toNat + i < buf.length := by omega
      have hidx : idx? buf (off + i) = some (buf.getD (off.toNat + i) 0) := by
        rw [idx?_nonneg _ _ (by omega), show (off + (i : Int)).toNat = off.toNat + i by omega]
        exact get?_eq_some_getD buf _ hnat
      have hm : smasks.get? i = some (smasks.getD i 0) := get?_eq_some_getD _ _ hlen'.1
      have hstep : checkLoop buf off smasks (sb :: rest) i =
          if buf.getD (off.toNat + i) 0 &&& smasks.getD i 0 ≠ sb then some false
          else checkLoop buf off smasks rest (i + 1) := by
        have h1 : checkLoop buf off smasks (sb :: rest) i =
            (if (buf.length : Int) ≤ off + i then some false
             else match idx? buf (off + i), smasks.get? i with
                  | some b, some m =>
                    if b &&& m ≠ sb then some false
                    else checkLoop buf off smasks rest (i + 1)
                  | _, _ => none) := rfl
        rw [h1, if_neg hg, hidx, hm]
      rw [hstep]
      by_cases hne : buf.getD (off.toNat + i) 0 &&& smasks.getD i 0 = sb
      · rw [if_neg (not_not_intro hne)]
        rw [checkLoop_true_iff buf off hoff smasks rest (i + 1) hlen'.2]
        constructor
        · intro h j hj
          cases j with
          | zero => exact ⟨by omega, by simpa using hne⟩
          | succ j' =>
            have hj' : j' < rest.length := by simpa using hj
            have := h j' hj'
            refine ⟨by omega, ?_⟩
            rw [show off.toNat + i + (j' + 1) = off.toNat + (i + 1) + j' by omega,
                show i + (j' + 1) = i + 1 + j' by omega]
            simpa using this.2
        · intro h j hj
          have := h (j + 1) (by simpa using Nat.succ_lt_succ hj)
          refine ⟨by omega, ?_⟩
          rw [show off.toNat + (i + 1) + j = off.toNat + i + (j + 1) by omega,
              show i + 1 + j = i + (j + 1) by omega]
          simpa using this.2
      · rw [if_pos hne]
        constructor
        · intro h
          simp at h
        · intro h
          exact absurd (by simpa using (h 0 (by simp)).2) hne

/-- C5.  With an equal-length mask and a non-negative offset, the
per-position comparison of the leaf accumulator succeeds exactly when
the masked buffer byte equals the pattern byte at every position
(bits masked out are ignored); in particular, an index holding a lone
registered masked pattern finds it for every buffer that agrees with it
under the mask at all positions. -/
theorem c5_masked_comparison [Inhabited T] (bytes masks : List Nat) (v : T)
    (buf : List Nat) (off : Int) (hm : masks.length = bytes.length) (hoff : 0 ≤ off) :
    (checkLoop buf off masks bytes 0 = some true ↔
      ∀ i, i < bytes.length → off.toNat + i < buf.length ∧
        buf.getD (off.toNat + i) 0 &&& masks.getD i 0 = bytes.getD i 0) ∧
    (0 < bytes.length →
      (∀ i, i < bytes.length → off.toNat + i < buf.length ∧
        buf.getD (off.toNat + i) 0 &&& masks.getD i 0 = bytes.getD i 0) →
      SignatureDecisionTree.new.add_signature bytes (some masks) (some v)
        = some (singletonTree bytes masks v) ∧
      (singletonTree bytes masks v).get_signature buf (some off) = some (some v)) := by
  have hiff := checkLoop_true_iff buf off hoff masks bytes 0 (by omega)
  simp only [Nat.zero_add, Nat.add_zero] at hiff
  refine ⟨hiff, fun h0 hagree => ⟨?_, ?_⟩⟩
  · have hadd : add_choice (TreeNode.mk 0 [] (List.replicate 256 none)
        ([] : List (SignatureInfo T))) ⟨bytes, masks, v⟩ =
        some (.mk 0 [⟨bytes, masks, v⟩] (List.replicate 256 none) []) :=
      add_choice_single_step _ _ _ (stepNode_defer 0 _ _ _ h0)
    show (if bytes ++ masks ∈ ([] : List (List Nat)) then
            some (SignatureDecisionTree.new (T := T))
          else
            match add_choice (TreeNode.mk 0 [] (List.replicate 256 none)
                ([] : List (SignatureInfo T))) ⟨bytes, masks, v⟩ with
            | none => none
            | some root => some ⟨root, [bytes ++ masks]⟩)
        = some (singletonTree bytes masks v)
    rw [if_neg (List.not_mem_nil _), hadd]
    rfl
  · have hchk : checkLoop buf off masks bytes 0 = some true := hiff.mpr hagree
    have hwalk : walkMatches (singletonTree bytes masks v) buf off =
        some [⟨bytes, masks, v⟩] := by
      have hmax : maxRootLen (singletonTree bytes masks v) = max bytes.length 0 := rfl
      rw [Nat.max_zero] at hmax
      unfold walkMatches
      rw [hmax]
      show getSigLoop buf off (bytes.length + 2)
          (.mk 0 [⟨bytes, masks, v⟩] (List.replicate 256 none) []) [] =
        some [⟨bytes, masks, v⟩]
      have hunfold : getSigLoop (T := T) buf off (bytes.length + 2)
          (.mk 0 [⟨bytes, masks, v⟩] (List.replicate 256 none) []) [] =
          match checkLoop buf off masks (bytes.drop 0) 0 with
          | none => none
          | some true => some (([] ++ []) ++ [⟨bytes, masks, v⟩])
          | some false => some ([] ++ []) := rfl
      rw [hunfold, List.drop_zero, hchk]
      rfl
    have hdef : (singletonTree bytes masks v).get_signature buf (some off) =
        match walkMatches (singletonTree bytes masks v) buf off with
        | none => none
        | some ms =>
          if ms.isEmpty then some none
          else some ((sortByLenDesc ms).head?.map SignatureInfo.object) := rfl
    rw [hdef, hwalk]
    rfl

/-- Witness for C5: the lone masked pattern `[0x50]` with mask `[0xf0]`
is found in the buffer `[0x5a]` (low bits differ but are masked out). -/
theorem c5_masked_comparison_witness :
    SignatureDecisionTree.new.add_signature [0x50] (some [0xf0]) (some (7 : Nat))
      = some (singletonTree [0x50] [0xf0] 7) ∧
    (singletonTree [0x50] [0xf0] 7).get_signature [0x5a] (some 0) = some (some 7) :=
  (c5_masked_comparison [0x50] [0xf0] 7 [0x5a] 0 (by decide) (by decide)).2
    (by decide) (by decide)

/-! ### Mismatched mask length (C6) -/

/-- C6 (refuted by the code).  `add_signature` applies no length check to
an explicitly supplied mask: registering `[0x01, 0x02]` with the
one-byte mask `[0xff]` succeeds (no error result), and the subsequent
lookup of `[0x01, 0x02]` panics (embedded `none`) on the out-of-bounds
mask access `smasks[1]`. -/
theorem c6_mismatched_mask_not_rejected :
    (SignatureDecisionTree.new.add_signature [0x01, 0x02] (some [0xff])
      (some (7 : Nat))).isSome = true ∧
    (SignatureDecisionTree.new.add_signature [0x01, 0x02] (some [0xff])
      (some (7 : Nat))).map (fun t => t.get_signature [0x01, 0x02] none) = some none := by
  exact ⟨by decide, by decide⟩

/-! ### Invariant machinery: trees reachable through the public API -/

theorem AllNodes.self {P : TreeNode T → Prop} {n : TreeNode T} (h : AllNodes P n) : P n := by
  cases h with
  | intro _ hn _ => exact hn

theorem AllNodes.child {P : TreeNode T → Prop} {n m : TreeNode T} (h : AllNodes P n)
    (hm : some m ∈ n.choices) : AllNodes P m := by
  cases h with
  | intro _ _ hc => exact hc _ hm m rfl

theorem AllNodes.mono {P Q : TreeNode T → Prop} (hpq : ∀ n, P n → Q n) :
    ∀ {n : TreeNode T}, AllNodes P n → AllNodes Q n := by
  intro n h
  induction h with
  | intro n hn _ ih => exact AllNodes.intro n (hpq n hn) ih

theorem NodeOKR_mono {R R' : List (SignatureInfo T)} (hsub : ∀ s ∈ R, s ∈ R')
    (n : TreeNode T) (h : NodeOKR R n) : NodeOKR R' n :=
  ⟨h.1, fun s hs => ⟨(h.2.1 s hs).1, hsub s (h.2.1 s hs).2⟩, h.2.2.1, h.2.2.2⟩

theorem AllNodes_term_irrel {R : List (SignatureInfo T)} (d : Nat)
    (sigs : List (SignatureInfo T)) (cs : List (Option (TreeNode T)))
    (tm tm' : List (SignatureInfo T))
    (h : AllNodes (NodeOKR R) (.mk d sigs cs tm)) :
    AllNodes (NodeOKR R) (.mk d sigs cs tm') := by
  cases h with
  | intro _ hn hc => exact AllNodes.intro _ hn hc

theorem AllNodes_fresh (R : List (SignatureInfo T)) (d : Nat) :
    AllNodes (NodeOKR R) (TreeNode.fresh d) := by
  refine AllNodes.intro _ ⟨?_, ?_, ?_, ?_⟩ ?_
  · exact List.length_replicate 256 none
  · intro s hs
    exact absurd hs (List.not_mem_nil s)
  · intro _ c hc
    exact List.eq_of_mem_replicate hc
  · intro c hc m hcm
    rw [List.eq_of_mem_replicate hc] at hcm
    cases hcm
  · intro c hc m hcm
    rw [List.eq_of_mem_replicate hc] at hcm
    cases hcm

theorem AllNodes_nodeAt {P : TreeNode T → Prop} :
    ∀ (p : List Nat) (t m : TreeNode T), AllNodes P t → nodeAt t p = some m →
      AllNodes P m
  | [], t, m, h, hp => by
    obtain ⟨d, sigs, cs, tm⟩ := t
    cases hp
    exact h
  | ch :: rest, t, m, h, hp => by
    obtain ⟨d, sigs, cs, tm⟩ := t
    cases hg : cs.get? ch with
    | none =>
      have heq : nodeAt (TreeNode.mk d sigs cs tm) (ch :: rest) = none := by
        simp only [nodeAt, hg]
      rw [heq] at hp
      cases hp
    | some o =>
      cases o with
      | none =>
        have heq : nodeAt (TreeNode.mk d sigs cs tm) (ch :: rest) = none := by
          simp only [nodeAt, hg]
        rw [heq] at hp
        cases hp
      | some c =>
        have heq : nodeAt (TreeNode.mk d sigs cs tm) (ch :: rest) = nodeAt c rest := by
          simp only [nodeAt, hg]
        rw [heq] at hp
        exact AllNodes_nodeAt rest c m (h.child (List.get?_mem hg)) hp

theorem ensureChild_spec (d : Nat) (cs cs' : List (Option (TreeNode T))) (ch : Nat)
    (h : ensureChild d cs ch = some cs') :
    cs'.length = cs.length ∧
    (∀ c ∈ cs', c ∈ cs ∨ c = some (TreeNode.fresh (d + 1))) ∧
    (∃ c, cs'.get? ch = some (some c) ∧
      (cs.get? ch = some (some c) ∨ c = TreeNode.fresh (d + 1))) := by
  cases hg : cs.get? ch with
  | none =>
    have heq : ensureChild d cs ch = none := by simp only [ensureChild, hg]
    rw [heq] at h
    cases h
  | some o =>
    cases o with
    | some x =>
      have heq : ensureChild d cs ch = some cs := by simp only [ensureChild, hg]
      rw [heq] at h
      cases h
      exact ⟨rfl, fun c hc => Or.inl hc, x, hg, Or.inl rfl⟩
    | none =>
      have heq : ensureChild d cs ch =
          some (cs.set ch (some (TreeNode.fresh (d + 1)))) := by
        simp only [ensureChild, hg]
      rw [heq] at h
      cases h
      refine ⟨List.length_set cs ch _, fun c hc => List.mem_or_eq_of_mem_set hc, ?_⟩
      refine ⟨TreeNode.fresh (d + 1), ?_, Or.inr rfl⟩
      rw [List.get?_set_eq, hg]
      rfl

theorem splitChildren_preserves (d : Nat) :
    ∀ (sigs : List (SignatureInfo T)) (cs cs' : List (Option (TreeNode T)))
      (ps : List (Nat × SignatureInfo T)),
      splitChildren d sigs cs = some (cs', ps) →
      cs'.length = cs.length ∧
      (∀ c ∈ cs', c ∈ cs ∨ c = some (TreeNode.fresh (d + 1))) ∧
      (∀ q ∈ ps, q.2 ∈ sigs)
  | [], cs, cs', ps, h => by
    cases h
    exact ⟨rfl, fun c hc => Or.inl hc, by simp⟩
  | s :: rest, cs, cs', ps, h => by
    cases hb : s.bytes.get? d with
    | none =>
      have heq : splitChildren d (s :: rest) cs = none := by
        simp only [splitChildren, hb]
      rw [heq] at h
      cases h
    | some ch =>
      cases he : ensureChild d cs ch with
      | none =>
        have heq : splitChildren d (s :: rest) cs = none := by
          simp only [splitChildren, hb, he]
        rw [heq] at h
        cases h
      | some cs₁ =>
        cases hsp : splitChildren d rest cs₁ with
        | none =>
          have heq : splitChildren d (s :: rest) cs = none := by
            simp only [splitChildren, hb, he, hsp]
          rw [heq] at h
          cases h
        | some pr =>
          obtain ⟨cs₂, ps₂⟩ := pr
          have heq : splitChildren d (s :: rest) cs = some (cs₂, (ch, s) :: ps₂) := by
            simp only [splitChildren, hb, he, hsp]
          rw [heq] at h
          have hinj : cs' = cs₂ ∧ ps = (ch, s) :: ps₂ := by
            cases h
            exact ⟨rfl, rfl⟩
          obtain ⟨rfl, rfl⟩ := hinj
          obtain ⟨hel, hem, -⟩ := ensureChild_spec d cs cs₁ ch he
          obtain ⟨hsl, hsm, hsp2⟩ := splitChildren_preserves d rest cs₁ cs' ps₂ hsp
          refine ⟨hsl.trans hel, fun c hc => ?_, fun q hq => ?_⟩
          · rcases hsm c hc with h1 | h1
            · exact hem c h1
            · exact Or.inr h1
          · rcases List.mem_cons.mp hq with h1 | h1
            · rw [h1]
              exact List.mem_cons_self s rest
            · exact List.mem_cons_of_mem s (hsp2 q h1)

theorem stepNode_preserves {R : List (SignatureInfo T)} (n n' : TreeNode T)
    (sig : SignatureInfo T) (ps : List (Nat × SignatureInfo T))
    (h : stepNode n sig = some (n', ps))
    (hok : NodeOKR R n)
    (hsig : sig ∈ R ∨ sig.bytes.length = 0) :
    NodeOKR R n' ∧
    n'.depth = n.depth ∧
    (∀ c ∈ n'.choices, c ∈ n.choices ∨ c = some (TreeNode.fresh (n.depth + 1))) ∧
    (∀ q ∈ ps, q.2 ∈ R) := by
  obtain ⟨d, sigs, cs, tm⟩ := n
  by_cases hlen : sig.bytes.length > d
  · have hsigR : sig ∈ R := by
      rcases hsig with h1 | h1
      · exact h1
      · omega
    have hmem : ∀ s ∈ sigs ++ [sig], d < s.bytes.length ∧ s ∈ R := by
      intro s hs
      rcases List.mem_append.mp hs with h1 | h1
      · exact hok.2.1 s h1
      · rw [List.mem_singleton.mp h1]
        exact ⟨hlen, hsigR⟩
    by_cases h0 : sigs.length = 0
    · have heq : stepNode (.mk d sigs cs tm) sig =
          some (.mk d (sigs ++ [sig]) cs tm, []) := by
        simp only [stepNode, if_pos hlen, if_pos h0]
      rw [heq] at h
      cases h
      refine ⟨⟨hok.1, hmem, ?_, hok.2.2.2⟩, rfl, fun c hc => Or.inl hc, by simp⟩
      intro _ c hc
      have hle : sigs.length ≤ 1 := by omega
      exact hok.2.2.1 hle c hc
    · by_cases h1 : sigs.length = 1
      · cases hsp : splitChildren d (sigs ++ [sig]) cs with
        | none =>
          have heq : stepNode (.mk d sigs cs tm) sig = none := by
            simp only [stepNode, if_pos hlen, if_neg h0, if_pos h1, hsp]
          rw [heq] at h
          cases h
        | some pr =>
          obtain ⟨cs', ps'⟩ := pr
          have heq : stepNode (.mk d sigs cs tm) sig =
              some (.mk d (sigs ++ [sig]) cs' tm, ps') := by
            simp only [stepNode, if_pos hlen, if_neg h0, if_pos h1, hsp]
          rw [heq] at h
          have hinj : n' = .mk d (sigs ++ [sig]) cs' tm ∧ ps = ps' := by
            cases h
            exact ⟨rfl, rfl⟩
          obtain ⟨rfl, rfl⟩ := hinj
          obtain ⟨hsl, hsm, hsps⟩ := splitChildren_preserves d (sigs ++ [sig]) cs cs' ps hsp
          refine ⟨⟨hsl.trans hok.1, hmem, ?_, ?_⟩, rfl, hsm, ?_⟩
          · intro hle
            exfalso
            simp only [TreeNode.subtree_signatures_mk, List.length_append,
              List.length_singleton] at hle
            omega
          · intro c hc m hcm
            rcases hsm c hc with h2 | h2
            · exact hok.2.2.2 c h2 m hcm
            · rw [h2] at hcm
              cases hcm
              rfl
          · intro q hq
            exact (hmem q.2 (hsps q hq)).2
      · cases hb : sig.bytes.get? d with
        | none =>
          have heq : stepNode (.mk d sigs cs tm) sig = none := by
            simp only [stepNode, if_pos hlen, if_neg h0, if_neg h1, hb]
          rw [heq] at h
          cases h
        | some ch =>
          cases he : ensureChild d cs ch with
          | none =>
            have heq : stepNode (.mk d sigs cs tm) sig = none := by
              simp only [stepNode, if_pos hlen, if_neg h0, if_neg h1, hb, he]
            rw [heq] at h
            cases h
          | some cs' =>
            have heq : stepNode (.mk d sigs cs tm) sig =
                some (.mk d (sigs ++ [sig]) cs' tm, [(ch, sig)]) := by
              simp only [stepNode, if_pos hlen, if_neg h0, if_neg h1, hb, he]
            rw [heq] at h
            have hinj : n' = .mk d (sigs ++ [sig]) cs' tm ∧ ps = [(ch, sig)] := by
              cases h
              exact ⟨rfl, rfl⟩
            obtain ⟨rfl, rfl⟩ := hinj
            obtain ⟨hel, hem, -⟩ := ensureChild_spec d cs cs' ch he
            refine ⟨⟨hel.trans hok.1, hmem, ?_, ?_⟩, rfl, hem, ?_⟩
            · intro hle
              exfalso
              simp only [TreeNode.subtree_signatures_mk, List.length_append,
                List.length_singleton] at hle
              omega
            · intro c hc m hcm
              rcases hem c hc with h2 | h2
              · exact hok.2.2.2 c h2 m hcm
              · rw [h2] at hcm
                cases hcm
                rfl
            · intro q hq
              rw [List.mem_singleton.mp hq]
              exact hsigR
  · have heq : stepNode (.mk d sigs cs tm) sig =
        some (.mk d sigs cs (tm ++ [sig]), []) := by
      simp only [stepNode, if_neg hlen]
    rw [heq] at h
    cases h
    exact ⟨⟨hok.1, hok.2.1, hok.2.2.1, hok.2.2.2⟩, rfl, fun c hc => Or.inl hc, by simp⟩

theorem stepAt_preserves {R : List (SignatureInfo T)} (sig : SignatureInfo T) :
    ∀ (p : List Nat) (n n' : TreeNode T) (ps : List (List Nat × SignatureInfo T)),
      stepAt n p sig = some (n', ps) →
      AllNodes (NodeOKR R) n →
      (sig ∈ R ∨ sig.bytes.length = 0) →
      AllNodes (NodeOKR R) n' ∧ n'.depth = n.depth ∧ (∀ q ∈ ps, q.2 ∈ R)
  | [], n, n', ps, h, hall, hsig => by
    cases hs : stepNode n sig with
    | none =>
      have heq : stepAt n [] sig = none := by simp only [stepAt, hs]
      rw [heq] at h
      cases h
    | some pr =>
      obtain ⟨n₁, ps₁⟩ := pr
      have heq : stepAt n [] sig = some (n₁, ps₁.map fun q => ([q.1], q.2)) := by
        simp only [stepAt, hs]
      rw [heq] at h
      have hinj : n' = n₁ ∧ ps = ps₁.map fun q => ([q.1], q.2) := by
        cases h
        exact ⟨rfl, rfl⟩
      obtain ⟨rfl, rfl⟩ := hinj
      obtain ⟨hok', hdep, hch, hps⟩ := stepNode_preserves n n' sig ps₁ hs hall.self hsig
      refine ⟨AllNodes.intro _ hok' ?_, hdep, ?_⟩
      · intro c hc m hcm
        rcases hch c hc with h1 | h1
        · exact hall.child (hcm ▸ h1)
        · rw [h1] at hcm
          cases hcm
          exact AllNodes_fresh R (n.depth + 1)
      · intro q hq
        simp only [List.mem_map] at hq
        obtain ⟨q₀, hq₀, hq₁⟩ := hq
        rw [← hq₁]
        exact hps q₀ hq₀
  | ch :: rest, n, n', ps, h, hall, hsig => by
    obtain ⟨d, sigs, cs, tm⟩ := n
    cases hg : cs.get? ch with
    | none =>
      have heq : stepAt (TreeNode.mk d sigs cs tm) (ch :: rest) sig = none := by
        simp only [stepAt, hg]
      rw [heq] at h
      cases h
    | some o =>
      cases o with
      | none =>
        have heq : stepAt (TreeNode.mk d sigs cs tm) (ch :: rest) sig = none := by
          simp only [stepAt, hg]
        rw [heq] at h
        cases h
      | some child =>
        cases hrec : stepAt child rest sig with
        | none =>
          have heq : stepAt (TreeNode.mk d sigs cs tm) (ch :: rest) sig = none := by
            simp only [stepAt, hg, hrec]
          rw [heq] at h
          cases h
        | some pr =>
          obtain ⟨child', ps₁⟩ := pr
          have heq : stepAt (TreeNode.mk d sigs cs tm) (ch :: rest) sig =
              some (.mk d sigs (cs.set ch (some child')) tm,
                    ps₁.map fun q => (ch :: q.1, q.2)) := by
            simp only [stepAt, hg, hrec]
          rw [heq] at h
          have hinj : n' = .mk d sigs (cs.set ch (some child')) tm ∧
              ps = ps₁.map fun q => (ch :: q.1, q.2) := by
            cases h
            exact ⟨rfl, rfl⟩
          obtain ⟨rfl, rfl⟩ := hinj
          have hchildmem : some child ∈ cs := List.get?_mem hg
          obtain ⟨hall', hdep, hps⟩ :=
            stepAt_preserves sig rest child child' ps₁ hrec (hall.child hchildmem) hsig
          have hok := hall.self
          refine ⟨AllNodes.intro _ ⟨?_, hok.2.1, ?_, ?_⟩ ?_, rfl, ?_⟩
          · simpa using hok.1
          · intro hle c hc
            have h2 := hok.2.2.1 hle (some child) hchildmem
            cases h2
          · intro c hc m hcm
            rcases List.mem_or_eq_of_mem_set hc with h1 | h1
            · exact hok.2.2.2 c h1 m hcm
            · rw [h1] at hcm
              cases hcm
              rw [hdep]
              exact hok.2.2.2 (some child) hchildmem child rfl
          · intro c hc m hcm
            rcases List.mem_or_eq_of_mem_set hc with h1 | h1
            · exact hall.child (hcm ▸ h1)
            · rw [h1] at hcm
              cases hcm
              exact hall'
          · intro q hq
            simp only [List.mem_map] at hq
            obtain ⟨q₀, hq₀, hq₁⟩ := hq
            rw [← hq₁]
            exact hps q₀ hq₀

theorem addLoop_preserves {R : List (SignatureInfo T)} :
    ∀ (fuel : Nat) (stk : List (List Nat × SignatureInfo T)) (t t' : TreeNode T),
      addLoop fuel t stk = some t' →
      AllNodes (NodeOKR R) t →
      (∀ e ∈ stk, e.2 ∈ R ∨ e.2.bytes.length = 0) →
      AllNodes (NodeOKR R) t' ∧ t'.depth = t.depth
  | fuel, [], t, t', h, hall, _ => by
    rw [addLoop_nil] at h
    cases h
    exact ⟨hall, rfl⟩
  | 0, e :: stk, t, t', h, hall, hstk => by cases h
  | fuel + 1, (p, s) :: stk, t, t', h, hall, hstk => by
    cases hst : stepAt t p s with
    | none =>
      rw [addLoop_cons, hst] at h
      cases h
    | some pr =>
      obtain ⟨t₁, ps⟩ := pr
      rw [addLoop_cons, hst] at h
      have h' : addLoop fuel t₁ (ps.reverse ++ stk) = some t' := h
      obtain ⟨hall₁, hdep₁, hps⟩ :=
        stepAt_preserves s p t t₁ ps hst hall (hstk (p, s) (List.mem_cons_self _ _))
      have hstk' : ∀ e ∈ ps.reverse ++ stk, e.2 ∈ R ∨ e.2.bytes.length = 0 := by
        intro e he
        rcases List.mem_append.mp he with h1 | h1
        · exact Or.inl (hps e (List.mem_reverse.mp h1))
        · exact hstk e (List.mem_cons_of_mem _ h1)
      obtain ⟨hall', hdep'⟩ := addLoop_preserves fuel (ps.reverse ++ stk) t₁ t' h' hall₁ hstk'
      exact ⟨hall', hdep'.trans hdep₁⟩

/-! ### The effect of one `add_choice` call on the root node -/

theorem stepAt_cons_root (d : Nat) (sigs : List (SignatureInfo T))
    (cs : List (Option (TreeNode T))) (tm : List (SignatureInfo T)) (ch : Nat)
    (rest : List Nat) (sig : SignatureInfo T) (n' : TreeNode T)
    (ps : List (List Nat × SignatureInfo T))
    (h : stepAt (TreeNode.mk d sigs cs tm) (ch :: rest) sig = some (n', ps)) :
    n'.subtree_signatures = sigs ∧ n'.term = tm ∧ n'.depth = d ∧ ∀ q ∈ ps, q.1 ≠ [] := by
  cases hg : cs.get? ch with
  | none =>
    have heq : stepAt (TreeNode.mk d sigs cs tm) (ch :: rest) sig = none := by
      simp only [stepAt, hg]
    rw [heq] at h
    cases h
  | some o =>
    cases o with
    | none =>
      have heq : stepAt (TreeNode.mk d sigs cs tm) (ch :: rest) sig = none := by
        simp only [stepAt, hg]
      rw [heq] at h
      cases h
    | some child =>
      cases hrec : stepAt child rest sig with
      | none =>
        have heq : stepAt (TreeNode.mk d sigs cs tm) (ch :: rest) sig = none := by
          simp only [stepAt, hg, hrec]
        rw [heq] at h
        cases h
      | some pr =>
        obtain ⟨child', ps₁⟩ := pr
        have heq : stepAt (TreeNode.mk d sigs cs tm) (ch :: rest) sig =
            some (.mk d sigs (cs.set ch (some child')) tm,
                  ps₁.map fun q => (ch :: q.1, q.2)) := by
          simp only [stepAt, hg, hrec]
        rw [heq] at h
        have hinj : n' = .mk d sigs (cs.set ch (some child')) tm ∧
            ps = ps₁.map fun q => (ch :: q.1, q.2) := by
          cases h
          exact ⟨rfl, rfl⟩
        obtain ⟨rfl, rfl⟩ := hinj
        refine ⟨rfl, rfl, rfl, ?_⟩
        intro q hq
        simp only [List.mem_map] at hq
        obtain ⟨q₀, -, hq₁⟩ := hq
        rw [← hq₁]
        simp

theorem addLoop_root :
    ∀ (fuel : Nat) (stk : List (List Nat × SignatureInfo T)) (t t' : TreeNode T),
      addLoop fuel t stk = some t' →
      (∀ e ∈ stk, e.1 ≠ []) →
      t'.subtree_signatures = t.subtree_signatures ∧ t'.term = t.term ∧ t'.depth = t.depth
  | fuel, [], t, t', h, _ => by
    rw [addLoop_nil] at h
    cases h
    exact ⟨rfl, rfl, rfl⟩
  | 0, e :: stk, t, t', h, hstk => by cases h
  | fuel + 1, (p, s) :: stk, t, t', h, hstk => by
    cases hst : stepAt t p s with
    | none =>
      rw [addLoop_cons, hst] at h
      cases h
    | some pr =>
      obtain ⟨t₁, ps⟩ := pr
      rw [addLoop_cons, hst] at h
      have h' : addLoop fuel t₁ (ps.reverse ++ stk) = some t' := h
      cases p with
      | nil => exact absurd rfl (hstk ([], s) (List.mem_cons_self _ _))
      | cons ch rest =>
        obtain ⟨d, sigs, cs, tm⟩ := t
        obtain ⟨hs1, hs2, hs3, hs4⟩ :=
          stepAt_cons_root d sigs cs tm ch rest s t₁ ps hst
        have hstk' : ∀ e ∈ ps.reverse ++ stk, e.1 ≠ [] := by
          intro e he
          rcases List.mem_append.mp he with h1 | h1
          · exact hs4 e (List.mem_reverse.mp h1)
          · exact hstk e (List.mem_cons_of_mem _ h1)
        obtain ⟨h1, h2, h3⟩ := addLoop_root fuel (ps.reverse ++ stk) t₁ t' h' hstk'
        exact ⟨h1.trans hs1, h2.trans hs2, h3.trans hs3⟩

theorem add_choice_eq (t : TreeNode T) (sig : SignatureInfo T) :
    add_choice t sig =
      match stepAt t [] sig with
      | none => none
      | some (t₁, ps) =>
        addLoop (2 * sig.bytes.length + 3) t₁ (ps.reverse ++ []) := by
  unfold add_choice
  rw [show 2 * sig.bytes.length + 4 = (2 * sig.bytes.length + 3) + 1 from rfl, addLoop_cons]

theorem add_choice_term (n : TreeNode T) (sig : SignatureInfo T)
    (h : sig.bytes.length ≤ n.depth) :
    add_choice n sig =
      some (.mk n.depth n.subtree_signatures n.choices (n.term ++ [sig])) := by
  obtain ⟨d, sigs, cs, tm⟩ := n
  simp only [TreeNode.depth_mk] at h
  have hs : stepNode (TreeNode.mk d sigs cs tm) sig =
      some (.mk d sigs cs (tm ++ [sig]), []) := by
    simp only [stepNode, if_neg (Nat.not_lt.mpr h)]
  have hsa : stepAt (TreeNode.mk d sigs cs tm) [] sig =
      some (.mk d sigs cs (tm ++ [sig]), []) := by
    simp only [stepAt, hs, List.map_nil]
  rw [add_choice_eq, hsa]
  exact addLoop_nil _ _

theorem stepNode_pending (d : Nat) (sigs : List (SignatureInfo T))
    (cs : List (Option (TreeNode T))) (tm : List (SignatureInfo T))
    (sig : SignatureInfo T) (n₁ : TreeNode T) (ps : List (Nat × SignatureInfo T))
    (hlen : d < sig.bytes.length)
    (h : stepNode (.mk d sigs cs tm) sig = some (n₁, ps)) :
    n₁.subtree_signatures = sigs ++ [sig] ∧ n₁.term = tm ∧ n₁.depth = d := by
  by_cases h0 : sigs.length = 0
  · have heq : stepNode (.mk d sigs cs tm) sig =
        some (.mk d (sigs ++ [sig]) cs tm, []) := by
      simp only [stepNode, if_pos hlen, if_pos h0]
    rw [heq] at h
    cases h
    exact ⟨rfl, rfl, rfl⟩
  · by_cases h1 : sigs.length = 1
    · cases hsp : splitChildren d (sigs ++ [sig]) cs with
      | none =>
        have heq : stepNode (.mk d sigs cs tm) sig = none := by
          simp only [stepNode, if_pos hlen, if_neg h0, if_pos h1, hsp]
        rw [heq] at h
        cases h
      | some pr =>
        obtain ⟨cs', ps'⟩ := pr
        have heq : stepNode (.mk d sigs cs tm) sig =
            some (.mk d (sigs ++ [sig]) cs' tm, ps') := by
          simp only [stepNode, if_pos hlen, if_neg h0, if_pos h1, hsp]
        rw [heq] at h
        cases h
        exact ⟨rfl, rfl, rfl⟩
    · cases hb : sig.bytes.get? d with
      | none =>
        have heq : stepNode (.mk d sigs cs tm) sig = none := by
          simp only [stepNode, if_pos hlen, if_neg h0, if_neg h1, hb]
        rw [heq] at h
        cases h
      | some ch =>
        cases he : ensureChild d cs ch with
        | none =>
          have heq : stepNode (.mk d sigs cs tm) sig = none := by
            simp only [stepNode, if_pos hlen, if_neg h0, if_neg h1, hb, he]
          rw [heq] at h
          cases h
        | some cs' =>
          have heq : stepNode (.mk d sigs cs tm) sig =
              some (.mk d (sigs ++ [sig]) cs' tm, [(ch, sig)]) := by
            simp only [stepNode, if_pos hlen, if_neg h0, if_neg h1, hb, he]
          rw [heq] at h
          cases h
          exact ⟨rfl, rfl, rfl⟩

theorem add_choice_pending (t t' : TreeNode T) (sig : SignatureInfo T)
    (hlen : t.depth < sig.bytes.length)
    (h : add_choice t sig = some t') :
    t'.subtree_signatures = t.subtree_signatures ++ [sig] ∧
    t'.term = t.term ∧ t'.depth = t.depth := by
  obtain ⟨d, sigs, cs, tm⟩ := t
  rw [add_choice_eq] at h
  cases hs : stepNode (TreeNode.mk d sigs cs tm) sig with
  | none =>
    have heq : stepAt (TreeNode.mk d sigs cs tm) [] sig = none := by
      simp only [stepAt, hs]
    rw [heq] at h
    cases h
  | some pr =>
    obtain ⟨n₁, ps₁⟩ := pr
    have heq : stepAt (TreeNode.mk d sigs cs tm) [] sig =
        some (n₁, ps₁.map fun q => ([q.1], q.2)) := by
      simp only [stepAt, hs]
    rw [heq] at h
    have h' : addLoop (2 * sig.bytes.length + 3) n₁
        ((ps₁.map fun q => ([q.1], q.2)).reverse ++ []) = some t' := h
    obtain ⟨hp1, hp2, hp3⟩ := stepNode_pending d sigs cs tm sig n₁ ps₁ hlen hs
    have hpaths : ∀ e ∈ (ps₁.map fun q => (([q.1] : List Nat), q.2)).reverse ++
        ([] : List (List Nat × SignatureInfo T)), e.1 ≠ [] := by
      intro e he
      rcases List.mem_append.mp he with h1 | h1
      · have h2 := List.mem_reverse.mp h1
        simp only [List.mem_map] at h2
        obtain ⟨q₀, -, hq₁⟩ := h2
        rw [← hq₁]
        simp
      · cases h1
    obtain ⟨h1, h2, h3⟩ := addLoop_root _ _ _ _ h' hpaths
    exact ⟨h1.trans hp1, h2.trans hp2, h3.trans hp3⟩

/-! ### `GoodTree` holds for every index built through the API -/

theorem new_good : GoodTree (SignatureDecisionTree.new : SignatureDecisionTree T) := by
  refine ⟨AllNodes_fresh [] 0, ?_, rfl⟩
  intro s hs
  exact absurd hs (List.not_mem_nil s)

theorem add_signature_good [Inhabited T] (t t' : SignatureDecisionTree T)
    (bytes : List Nat) (masks : Option (List Nat)) (val : Option T)
    (h : t.add_signature bytes masks val = some t')
    (hg : GoodTree t)
    (hb : ∀ b ∈ bytes, b < 256)
    (hm : ∀ m, masks = some m → m.length = bytes.length ∧ ∀ b ∈ m, b < 256) :
    GoodTree t' := by
  have hrm : (masks.getD (List.replicate bytes.length 0xff)).length = bytes.length ∧
      ∀ b ∈ masks.getD (List.replicate bytes.length 0xff), b < 256 := by
    cases masks with
    | none =>
      refine ⟨List.length_replicate _ _, ?_⟩
      intro b hb'
      rw [List.eq_of_mem_replicate hb']
      omega
    | some m => simpa using hm m rfl
  have hshow : t.add_signature bytes masks val =
      (if bytes ++ masks.getD (List.replicate bytes.length 0xff) ∈ t.sigs_dup then some t
       else
         match add_choice t.base_node
             ⟨bytes, masks.getD (List.replicate bytes.length 0xff), val.getD default⟩ with
         | none => none
         | some root =>
           some ⟨root,
             (bytes ++ masks.getD (List.replicate bytes.length 0xff)) :: t.sigs_dup⟩) := rfl
  rw [hshow] at h
  by_cases hdup : bytes ++ masks.getD (List.replicate bytes.length 0xff) ∈ t.sigs_dup
  · rw [if_pos hdup] at h
    cases h
    exact hg
  · rw [if_neg hdup] at h
    cases hac : add_choice t.base_node
        ⟨bytes, masks.getD (List.replicate bytes.length 0xff), val.getD default⟩ with
    | none =>
      rw [hac] at h
      cases h
    | some root =>
      rw [hac] at h
      have h2 : t' = ⟨root,
          (bytes ++ masks.getD (List.replicate bytes.length 0xff)) :: t.sigs_dup⟩ := by
        cases h
        rfl
      subst h2
      set sig : SignatureInfo T :=
        ⟨bytes, masks.getD (List.replicate bytes.length 0xff), val.getD default⟩ with hsigdef
      have hsigwf : SigWF sig := ⟨hrm.1, hb, hrm.2⟩
      rcases Nat.eq_zero_or_pos bytes.length with hzero | hpos
      · have hterm := add_choice_term t.base_node sig (by
          show sig.bytes.length ≤ t.base_node.depth
          rw [hsigdef]
          simp [hzero])
        rw [hterm] at hac
        have hroot : root = .mk t.base_node.depth t.base_node.subtree_signatures
            t.base_node.choices (t.base_node.term ++ [sig]) := by
          cases hac
          rfl
        subst hroot
        obtain ⟨tb, dups⟩ := t
        obtain ⟨d0, sigs0, cs0, tm0⟩ := tb
        refine ⟨?_, ?_, ?_⟩
        · exact AllNodes_term_irrel d0 sigs0 cs0 tm0 _ hg.1
        · exact hg.2.1
        · exact hg.2.2
      · have hlen : t.base_node.depth < sig.bytes.length := by
          rw [hg.2.2]
          exact hpos
        obtain ⟨hp1, hp2, hp3⟩ := add_choice_pending t.base_node root sig hlen hac
        have hsub : ∀ s ∈ t.base_node.subtree_signatures,
            s ∈ t.base_node.subtree_signatures ++ [sig] :=
          fun s hs => List.mem_append_left _ hs
        have hsigR' : sig ∈ t.base_node.subtree_signatures ++ [sig] :=
          List.mem_append_right _ (List.mem_singleton.mpr rfl)
        have hall0 : AllNodes (NodeOKR (t.base_node.subtree_signatures ++ [sig]))
            t.base_node :=
          hg.1.mono (NodeOKR_mono hsub)
        rw [add_choice_eq] at hac
        cases hs : stepNode t.base_node sig with
        | none =>
          have heq : stepAt t.base_node [] sig = none := by simp only [stepAt, hs]
          rw [heq] at hac
          cases hac
        | some pr =>
          obtain ⟨n₁, ps₁⟩ := pr
          have heq : stepAt t.base_node [] sig =
              some (n₁, ps₁.map fun q => ([q.1], q.2)) := by
            simp only [stepAt, hs]
          rw [heq] at hac
          have hac' : addLoop (2 * sig.bytes.length + 3) n₁
              ((ps₁.map fun q => (([q.1] : List Nat), q.2)).reverse ++ []) = some root := hac
          obtain ⟨hall₁, -, hps⟩ :=
            stepAt_preserves sig [] t.base_node n₁ _ heq hall0 (Or.inl hsigR')
          have hstk : ∀ e ∈ (ps₁.map fun q => (([q.1] : List Nat), q.2)).reverse ++
              ([] : List (List Nat × SignatureInfo T)),
              e.2 ∈ t.base_node.subtree_signatures ++ [sig] ∨ e.2.bytes.length = 0 := by
            intro e he
            rcases List.mem_append.mp he with h1 | h1
            · exact Or.inl (hps e (List.mem_reverse.mp h1))
            · cases h1
          obtain ⟨hallroot, -⟩ := addLoop_preserves _ _ _ _ hac' hall₁ hstk
          refine ⟨?_, ?_, ?_⟩
          · show AllNodes (NodeOKR root.subtree_signatures) root
            rw [hp1]
            exact hallroot
          · intro s hs'
            rw [show (⟨root, _ :: t.sigs_dup⟩ :
                SignatureDecisionTree T).base_node = root from rfl, hp1] at hs'
            rcases List.mem_append.mp hs' with h1 | h1
            · exact hg.2.1 s h1
            · rw [List.mem_singleton.mp h1]
              exact hsigwf
          · show root.depth = 0
            rw [hp3]
            exact hg.2.2

theorem applyRegs_good [Inhabited T] :
    ∀ (regs : List (Reg T)) (t0 t : SignatureDecisionTree T),
      applyRegs t0 regs = some t → GoodTree t0 → (∀ r ∈ regs, RegWF r) → GoodTree t
  | [], t0, t, h, hg, _ => by
    cases h
    exact hg
  | r :: regs, t0, t, h, hg, hwf => by
    cases hadd : t0.add_signature r.1 r.2.1 r.2.2 with
    | none =>
      have heq : applyRegs t0 (r :: regs) = none := by simp only [applyRegs, hadd]
      rw [heq] at h
      cases h
    | some t1 =>
      have heq : applyRegs t0 (r :: regs) = applyRegs t1 regs := by
        simp only [applyRegs, hadd]
      rw [heq] at h
      have hr := hwf r (List.mem_cons_self _ _)
      have hg1 : GoodTree t1 := by
        refine add_signature_good t0 t1 r.1 r.2.1 r.2.2 hadd hg hr.1 ?_
        intro m hmm
        have h2 := hr.2
        rw [hmm] at h2
        exact h2
      exact applyRegs_good regs t1 t h hg1 fun x hx => hwf x (List.mem_cons_of_mem _ hx)

theorem builtWF_good [Inhabited T] (t : SignatureDecisionTree T) (h : BuiltWF t) :
    GoodTree t := by
  obtain ⟨regs, hwf, happ⟩ := h
  exact applyRegs_good regs _ t happ new_good hwf

theorem get?_of_all_none (cs : List (Option (TreeNode T))) (i : Nat)
    (hi : i < cs.length) (hnone : ∀ c ∈ cs, c = none) : cs.get? i = some none := by
  cases hg : cs.get? i with
  | none =>
    rw [List.get?_eq_none] at hg
    omega
  | some c => rw [hnone c (List.get?_mem hg)]

/-- The split of a leaf accumulator: when a second pending signature
arrives at a childless one-signature node, fresh children keyed by each
signature's byte at the node's depth are materialized and both
signatures are pushed to them, in order. -/
theorem stepNode_split (d : Nat) (old sig : SignatureInfo T)
    (cs : List (Option (TreeNode T))) (tm : List (SignatureInfo T))
    (hold : d < old.bytes.length) (hsig : d < sig.bytes.length)
    (hco : old.bytes.getD d 0 < 256) (hcx : sig.bytes.getD d 0 < 256)
    (hcs : cs.length = 256) (hnone : ∀ c ∈ cs, c = none) :
    ∃ cs', stepNode (.mk d [old] cs tm) sig =
        some (.mk d [old, sig] cs' tm,
              [(old.bytes.getD d 0, old), (sig.bytes.getD d 0, sig)]) ∧
      cs'.length = 256 ∧
      cs'.get? (old.bytes.getD d 0) = some (some (TreeNode.fresh (d + 1))) ∧
      cs'.get? (sig.bytes.getD d 0) = some (some (TreeNode.fresh (d + 1))) := by
  have hbo : old.bytes.get? d = some (old.bytes.getD d 0) := get?_eq_some_getD _ _ hold
  have hbs : sig.bytes.get? d = some (sig.bytes.getD d 0) := get?_eq_some_getD _ _ hsig
  have hg1 : cs.get? (old.bytes.getD d 0) = some none :=
    get?_of_all_none cs _ (by omega) hnone
  have he1 : ensureChild d cs (old.bytes.getD d 0) =
      some (cs.set (old.bytes.getD d 0) (some (TreeNode.fresh (d + 1)))) := by
    simp only [ensureChild, hg1]
  have hcs1len : (cs.set (old.bytes.getD d 0) (some (TreeNode.fresh (d + 1)))).length
      = 256 := by
    rw [List.length_set]
    exact hcs
  have hslot1 : (cs.set (old.bytes.getD d 0) (some (TreeNode.fresh (d + 1)))).get?
      (old.bytes.getD d 0) = some (some (TreeNode.fresh (d + 1))) := by
    rw [List.get?_set_eq, hg1]
    rfl
  by_cases heqch : sig.bytes.getD d 0 = old.bytes.getD d 0
  · have hg2 : (cs.set (old.bytes.getD d 0) (some (TreeNode.fresh (d + 1)))).get?
        (sig.bytes.getD d 0) = some (some (TreeNode.fresh (d + 1))) := by
      rw [heqch]
      exact hslot1
    have he2 : ensureChild d (cs.set (old.bytes.getD d 0)
        (some (TreeNode.fresh (d + 1)))) (sig.bytes.getD d 0) =
        some (cs.set (old.bytes.getD d 0) (some (TreeNode.fresh (d + 1)))) := by
      simp only [ensureChild, hg2]
    have hsp : splitChildren d [old, sig] cs =
        some (cs.set (old.bytes.getD d 0) (some (TreeNode.fresh (d + 1))),
              [(old.bytes.getD d 0, old), (sig.bytes.getD d 0, sig)]) := by
      simp only [splitChildren, hbo, hbs, he1, he2]
    refine ⟨_, ?_, hcs1len, hslot1, hg2⟩
    simp [stepNode, hsig, hsp]
  · have hg2 : (cs.set (old.bytes.getD d 0) (some (TreeNode.fresh (d + 1)))).get?
        (sig.bytes.getD d 0) = some none := by
      rw [List.get?_set_ne _ _ fun h => heqch h.symm]
      exact get?_of_all_none cs _ (by omega) hnone
    have he2 : ensureChild d (cs.set (old.bytes.getD d 0)
        (some (TreeNode.fresh (d + 1)))) (sig.bytes.getD d 0) =
        some ((cs.set (old.bytes.getD d 0) (some (TreeNode.fresh (d + 1)))).set
          (sig.bytes.getD d 0) (some (TreeNode.fresh (d + 1)))) := by
      simp only [ensureChild, hg2]
    have hsp : splitChildren d [old, sig] cs =
        some ((cs.set (old.bytes.getD d 0) (some (TreeNode.fresh (d + 1)))).set
            (sig.bytes.getD d 0) (some (TreeNode.fresh (d + 1))),
          [(old.bytes.getD d 0, old), (sig.bytes.getD d 0, sig)]) := by
      simp only [splitChildren, hbo, hbs, he1, he2]
    refine ⟨(cs.set (old.bytes.getD d 0) (some (TreeNode.fresh (d + 1)))).set
        (sig.bytes.getD d 0) (some (TreeNode.fresh (d + 1))), ?_, ?_, ?_, ?_⟩
    · simp [stepNode, hsig, hsp]
    · rw [List.length_set]
      exact hcs1len
    · rw [List.get?_set_ne _ _ heqch]
      exact hslot1
    · rw [List.get?_set_eq, hg2]
      rfl

/-- Helper: an `Option` known to be `some` equals `some` of its `getD`. -/
theorem opt_eq_some_getD {A : Type} (o : Option A) (a : A) (h : o.isSome = true) :
    o = some (o.getD a) := by
  cases o with
  | none => cases h
  | some x => rfl

/-- The seed index is built through the API by well-formed registrations. -/
theorem seedTree_builtWF : BuiltWF seedTree := by
  refine ⟨seedRegs, ?_, ?_⟩
  · intro r hr
    fin_cases hr <;> exact ⟨by decide, trivial⟩
  · exact opt_eq_some_getD (applyRegs SignatureDecisionTree.new seedRegs)
      SignatureDecisionTree.new (by decide)

/-- C7.  In every index reachable through the API, a node with at most
one pending signature has all 256 child slots `None`; children are
first materialized by the split step, which re-routes every pending
signature (the existing one included) into a fresh child keyed by its
byte at the node's depth. -/
theorem c7_leaf_accumulator_invariant [Inhabited T] (t : SignatureDecisionTree T)
    (h : BuiltWF t) :
    AllNodes (fun n => n.choices.length = 256 ∧
      (n.subtree_signatures.length ≤ 1 → ∀ c ∈ n.choices, c = none)) t.base_node ∧
    (∀ (d : Nat) (old sig : SignatureInfo T) (cs : List (Option (TreeNode T)))
        (tm : List (SignatureInfo T)),
      d < old.bytes.length → d < sig.bytes.length →
      old.bytes.getD d 0 < 256 → sig.bytes.getD d 0 < 256 →
      cs.length = 256 → (∀ c ∈ cs, c = none) →
      ∃ cs', stepNode (.mk d [old] cs tm) sig =
          some (.mk d [old, sig] cs' tm,
                [(old.bytes.getD d 0, old), (sig.bytes.getD d 0, sig)]) ∧
        cs'.get? (old.bytes.getD d 0) = some (some (TreeNode.fresh (d + 1))) ∧
        cs'.get? (sig.bytes.getD d 0) = some (some (TreeNode.fresh (d + 1)))) := by
  constructor
  · exact (builtWF_good t h).1.mono fun n hn => ⟨hn.1, hn.2.2.1⟩
  · intro d old sig cs tm hold hsig hco hcx hcs hnone
    obtain ⟨cs', hstep, -, h1, h2⟩ :=
      stepNode_split d old sig cs tm hold hsig hco hcx hcs hnone
    exact ⟨cs', hstep, h1, h2⟩

/-- Witness for C7: the invariant holds of the seed index. -/
theorem c7_leaf_accumulator_invariant_witness :
    AllNodes (fun n => n.choices.length = 256 ∧
      (n.subtree_signatures.length ≤ 1 → ∀ c ∈ n.choices, c = none))
      seedTree.base_node :=
  (c7_leaf_accumulator_invariant seedTree seedTree_builtWF).1

/-! ### Totality of the walk on well-formed built trees -/

theorem checkLoop_isSome (buf : List Nat) (off : Int) (hoff : 0 ≤ off)
    (smasks : List Nat) :
    ∀ (l : List Nat) (i : Nat), i + l.length ≤ smasks.length →
      (checkLoop buf off smasks l i).isSome
  | [], i, _ => by rw [show checkLoop buf off smasks [] i = some true from rfl]; rfl
  | sb :: rest, i, hlen => by
    simp only [List.length_cons] at hlen
    by_cases hg : (buf.length : Int) ≤ off + i
    · have heq : checkLoop buf off smasks (sb :: rest) i = some false := by
        simp [checkLoop, hg]
      rw [heq]
      rfl
    · have hidx : idx? buf (off + i) = some (buf.getD (off + i).toNat 0) := by
        rw [idx?_nonneg _ _ (by omega)]
        exact get?_eq_some_getD buf _ (by omega)
      have hm : smasks.get? i = some (smasks.getD i 0) :=
        get?_eq_some_getD _ _ (by omega)
      have hstep : checkLoop buf off smasks (sb :: rest) i =
          if buf.getD (off + i).toNat 0 &&& smasks.getD i 0 ≠ sb then some false
          else checkLoop buf off smasks rest (i + 1) := by
        have h1 : checkLoop buf off smasks (sb :: rest) i =
            (if (buf.length : Int) ≤ off + i then some false
             else match idx? buf (off + i), smasks.get? i with
                  | some b, some m =>
                    if b &&& m ≠ sb then some false
                    else checkLoop buf off smasks rest (i + 1)
                  | _, _ => none) := rfl
        rw [h1, if_neg hg, hidx, hm]
      rw [hstep]
      by_cases hne : buf.getD (off + i).toNat 0 &&& smasks.getD i 0 ≠ sb
      · rw [if_pos hne]
        rfl
      · rw [if_neg hne]
        exact checkLoop_isSome buf off hoff smasks rest (i + 1) (by omega)

theorem scanStep_total (buf : List Nat) (off : Int) (hoff : 0 ≤ off) (d : Nat)
    (sig : SignatureInfo T) (hd : d < sig.bytes.length)
    (hm : sig.masks.length = sig.bytes.length) :
    scanStep buf off d sig = some none ∨
    ∃ masked, scanStep buf off d sig = some (some masked) ∧
      masked ≤ sig.masks.getD d 0 := by
  by_cases hg : (buf.length : Int) ≤ off + d
  · left
    simp [scanStep, hg]
  · have hidx : idx? buf (off + d) = some (buf.getD (off + d).toNat 0) := by
      rw [idx?_nonneg _ _ (by omega)]
      exact get?_eq_some_getD buf _ (by omega)
    have hms : sig.masks.get? d = some (sig.masks.getD d 0) :=
      get?_eq_some_getD _ _ (by omega)
    have hbs : sig.bytes.get? d = some (sig.bytes.getD d 0) :=
      get?_eq_some_getD _ _ hd
    have hstep : scanStep buf off d sig =
        if buf.getD (off + d).toNat 0 &&& sig.masks.getD d 0 = sig.bytes.getD d 0 then
          some (some (buf.getD (off + d).toNat 0 &&& sig.masks.getD d 0))
        else some none := by
      have h1 : scanStep buf off d sig =
          (if (buf.length : Int) ≤ off + d then some none
           else match idx? buf (off + d), sig.masks.get? d, sig.bytes.get? d with
                | some b, some m, some sb =>
                  if b &&& m = sb then some (some (b &&& m)) else some none
                | _, _, _ => none) := rfl
      rw [h1, if_neg hg, hidx, hms, hbs]
    rw [hstep]
    by_cases hc : buf.getD (off + d).toNat 0 &&& sig.masks.getD d 0 = sig.bytes.getD d 0
    · right
      exact ⟨_, by rw [if_pos hc], Nat.and_le_right⟩
    · left
      rw [if_neg hc]

theorem chooseLoop_total (buf : List Nat) (off : Int) (hoff : 0 ≤ off) (d : Nat)
    (cs : List (Option (TreeNode T))) (hcs : cs.length = 256) :
    ∀ (sigs : List (SignatureInfo T)),
      (∀ s ∈ sigs, d < s.bytes.length ∧ s.masks.length = s.bytes.length ∧
        ∀ b ∈ s.masks, b < 256) →
      chooseLoop buf off d cs sigs = some none ∨
      ∃ c, chooseLoop buf off d cs sigs = some (some c) ∧ some c ∈ cs
  | [], _ => Or.inl rfl
  | sig :: rest, hsigs => by
    obtain ⟨hd, hm, hmb⟩ := hsigs sig (List.mem_cons_self _ _)
    rcases scanStep_total buf off hoff d sig hd hm with hskip | ⟨masked, hhit, hle⟩
    · have heq : chooseLoop buf off d cs (sig :: rest) = chooseLoop buf off d cs rest := by
        simp only [chooseLoop, hskip]
      rw [heq]
      exact chooseLoop_total buf off hoff d cs hcs rest
        fun s hs => hsigs s (List.mem_cons_of_mem _ hs)
    · have hmlt : sig.masks.getD d 0 < 256 := by
        have hmem : sig.masks.getD d 0 ∈ sig.masks :=
          List.get?_mem (get?_eq_some_getD _ _ (by omega))
        exact hmb _ hmem
      have hidx : masked < cs.length := by omega
      have heq : chooseLoop buf off d cs (sig :: rest) = cs.get? masked := by
        simp only [chooseLoop, hhit]
      cases hgot : cs.get? masked with
      | none =>
        rw [List.get?_eq_none] at hgot
        omega
      | some o =>
        cases o with
        | none =>
          left
          rw [heq, hgot]
        | some c =>
          right
          exact ⟨c, by rw [heq, hgot], List.get?_mem hgot⟩

theorem len_le_maxSigLen :
    ∀ (R : List (SignatureInfo T)) (s : SignatureInfo T), s ∈ R →
      s.bytes.length ≤ maxSigLen R
  | x :: R, s, hs => by
    have heq : maxSigLen (x :: R) = max x.bytes.length (maxSigLen R) := rfl
    rcases List.mem_cons.mp hs with h1 | h1
    · rw [heq, h1]
      exact Nat.le_max_left _ _
    · rw [heq]
      exact le_trans (len_le_maxSigLen R s h1) (Nat.le_max_right _ _)

theorem getSigLoop_isSome (R : List (SignatureInfo T)) (hwfR : ∀ s ∈ R, SigWF s)
    (buf : List Nat) (off : Int) (hoff : 0 ≤ off) :
    ∀ (fuel : Nat) (n : TreeNode T) (acc : List (SignatureInfo T)),
      AllNodes (NodeOKR R) n →
      maxSigLen R + 2 ≤ fuel + n.depth →
      n.depth ≤ maxSigLen R + 1 →
      (getSigLoop buf off fuel n acc).isSome
  | 0, n, acc, _, hfuel, hdep => by
    exfalso
    omega
  | fuel + 1, n, acc, hall, hfuel, hdep => by
    obtain ⟨d, sigs, cs, tm⟩ := n
    have hok := hall.self
    match sigs, hall, hok, hfuel, hdep with
    | [], hall, hok, hfuel, hdep =>
      rw [show getSigLoop buf off (fuel + 1)
          (.mk d ([] : List (SignatureInfo T)) cs tm) acc = some (acc ++ tm) from rfl]
      rfl
    | [s1], hall, hok, hfuel, hdep =>
      obtain ⟨hd1, hR1⟩ := hok.2.1 s1 (List.mem_cons_self _ _)
      have hwf1 := hwfR s1 hR1
      have hc := checkLoop_isSome buf off hoff s1.masks (s1.bytes.drop d) d (by
        rw [List.length_drop]
        have hd1' : d < s1.bytes.length := hd1
        have hm1 : s1.masks.length = s1.bytes.length := (hwfR s1 hR1).1
        omega)
      have heq : getSigLoop buf off (fuel + 1) (.mk d [s1] cs tm) acc =
          match checkLoop buf off s1.masks (s1.bytes.drop d) d with
          | none => none
          | some true => some ((acc ++ tm) ++ [s1])
          | some false => some (acc ++ tm) := rfl
      rw [heq]
      cases hcl : checkLoop buf off s1.masks (s1.bytes.drop d) d with
      | none =>
        rw [hcl] at hc
        cases hc
      | some b =>
        cases b <;> rfl
    | s1 :: s2 :: srest, hall, hok, hfuel, hdep =>
      have hsigsc : ∀ s ∈ s1 :: s2 :: srest, d < s.bytes.length ∧
          s.masks.length = s.bytes.length ∧ ∀ b ∈ s.masks, b < 256 := by
        intro s hs
        have h1 := hok.2.1 s hs
        have h2 := hwfR s h1.2
        exact ⟨h1.1, h2.1, h2.2.2⟩
      have heq : getSigLoop buf off (fuel + 1) (.mk d (s1 :: s2 :: srest) cs tm) acc =
          match chooseLoop buf off d cs (s1 :: s2 :: srest) with
          | none => none
          | some none => some (acc ++ tm)
          | some (some child) => getSigLoop buf off fuel child (acc ++ tm) := rfl
      rcases chooseLoop_total buf off hoff d cs hok.1 (s1 :: s2 :: srest) hsigsc with
        hnone | ⟨c, hsome, hmemc⟩
      · rw [heq, hnone]
        rfl
      · rw [heq, hsome]
        have hcd : c.depth = d + 1 := hok.2.2.2 (some c) hmemc c rfl
        have h1 := hok.2.1 s1 (List.mem_cons_self _ _)
        have hd2 : d < maxSigLen R :=
          lt_of_lt_of_le h1.1 (len_le_maxSigLen R s1 h1.2)
        exact getSigLoop_isSome R hwfR buf off hoff fuel c (acc ++ tm)
          (hall.child hmemc) (by simp only [TreeNode.depth_mk] at hfuel; omega)
          (by omega)

theorem getSigLoop_extends :
    ∀ (fuel : Nat) (n : TreeNode T) (acc ms : List (SignatureInfo T))
      (buf : List Nat) (off : Int),
      getSigLoop buf off fuel n acc = some ms →
      ∃ rest, ms = (acc ++ n.term) ++ rest
  | 0, n, acc, ms, buf, off, h => by cases h
  | fuel + 1, n, acc, ms, buf, off, h => by
    obtain ⟨d, sigs, cs, tm⟩ := n
    match sigs, h with
    | [], h =>
      rw [show getSigLoop buf off (fuel + 1)
          (.mk d ([] : List (SignatureInfo T)) cs tm) acc = some (acc ++ tm) from rfl] at h
      cases h
      exact ⟨[], by simp⟩
    | [s1], h =>
      have heq : getSigLoop buf off (fuel + 1) (.mk d [s1] cs tm) acc =
          match checkLoop buf off s1.masks (s1.bytes.drop d) d with
          | none => none
          | some true => some ((acc ++ tm) ++ [s1])
          | some false => some (acc ++ tm) := rfl
      rw [heq] at h
      cases hcl : checkLoop buf off s1.masks (s1.bytes.drop d) d with
      | none =>
        rw [hcl] at h
        cases h
      | some b =>
        rw [hcl] at h
        cases b
        · cases h
          exact ⟨[], by simp⟩
        · cases h
          exact ⟨[s1], by simp⟩
    | s1 :: s2 :: srest, h =>
      have heq : getSigLoop buf off (fuel + 1) (.mk d (s1 :: s2 :: srest) cs tm) acc =
          match chooseLoop buf off d cs (s1 :: s2 :: srest) with
          | none => none
          | some none => some (acc ++ tm)
          | some (some child) => getSigLoop buf off fuel child (acc ++ tm) := rfl
      rw [heq] at h
      cases hch : chooseLoop buf off d cs (s1 :: s2 :: srest) with
      | none =>
        rw [hch] at h
        cases h
      | some o =>
        rw [hch] at h
        cases o with
        | none =>
          cases h
          exact ⟨[], by simp⟩
        | some child =>
          obtain ⟨rest, hrest⟩ := getSigLoop_extends fuel child (acc ++ tm) ms buf off h
          exact ⟨child.term ++ rest, by rw [hrest]; simp⟩

theorem walkMatches_extends (t : SignatureDecisionTree T) (buf : List Nat) (off : Int)
    (ms : List (SignatureInfo T)) (h : walkMatches t buf off = some ms) :
    ∃ rest, ms = t.base_node.term ++ rest := by
  obtain ⟨rest, hrest⟩ :=
    getSigLoop_extends (maxRootLen t + 2) t.base_node [] ms buf off h
  exact ⟨rest, by simpa using hrest⟩

theorem firstMax_cons_isSome (x : SignatureInfo T) (xs : List (SignatureInfo T)) :
    ∃ y, firstMax (x :: xs) = some y := by
  cases hfm : firstMax xs with
  | none => exact ⟨x, by simp [firstMax, hfm]⟩
  | some y =>
    by_cases hc : x.bytes.length < y.bytes.length
    · exact ⟨y, by simp [firstMax, hfm, hc]⟩
    · exact ⟨x, by simp [firstMax, hfm, hc]⟩

theorem get_signature_eq_match (t : SignatureDecisionTree T) (buf : List Nat)
    (off? : Option Int) :
    t.get_signature buf off? =
      match walkMatches t buf (off?.getD 0) with
      | none => none
      | some ms =>
        if ms.isEmpty then some none
        else some ((sortByLenDesc ms).head?.map SignatureInfo.object) := rfl

/-- C10.  With every registered mask equal in length to its bytes and a
non-negative offset, the walk of `get_signature` performs no
out-of-bounds access: the embedding's panic branch (`none`) is
unreachable.  Without the preconditions it is reachable: looking up at
offset `-1` panics on the negative buffer index. -/
theorem c10_no_out_of_bounds [Inhabited T] (t : SignatureDecisionTree T)
    (h : BuiltWF t) (buf : List Nat) (off? : Option Int)
    (hoff : 0 ≤ off?.getD 0) :
    (t.get_signature buf off?).isSome = true ∧
    (singletonTree [0x01] [0xff] (5 : Nat)).get_signature [0x01] (some (-1)) = none := by
  constructor
  · obtain ⟨hall, hwfR, hdepth⟩ := builtWF_good t h
    have hw : (walkMatches t buf (off?.getD 0)).isSome :=
      getSigLoop_isSome t.base_node.subtree_signatures hwfR buf (off?.getD 0) hoff
        (maxRootLen t + 2) t.base_node [] hall
        (by rw [hdepth]; exact Nat.le_refl _) (by rw [hdepth]; omega)
    cases hwm : walkMatches t buf (off?.getD 0) with
    | none =>
      rw [hwm] at hw
      cases hw
    | some ms =>
      have heq : t.get_signature buf off? =
          if ms.isEmpty then some none
          else some ((sortByLenDesc ms).head?.map SignatureInfo.object) := by
        rw [get_signature_eq_match, hwm]
      rw [heq]
      by_cases he : ms.isEmpty
      · rw [if_pos he]
        rfl
      · rw [if_neg he]
        rfl
  · decide

/-- Witness for C10: lookups on the seed index never panic. -/
theorem c10_no_out_of_bounds_witness :
    (seedTree.get_signature B1 none).isSome = true ∧
    (singletonTree [0x01] [0xff] (5 : Nat)).get_signature [0x01] (some (-1)) = none :=
  c10_no_out_of_bounds seedTree seedTree_builtWF B1 none (by decide)

/-! ### The empty pattern (C9) -/

theorem applyRegs_snoc [Inhabited T] :
    ∀ (regs : List (Reg T)) (t0 t1 : SignatureDecisionTree T) (r : Reg T),
      applyRegs t0 regs = some t1 →
      applyRegs t0 (regs ++ [r]) = t1.add_signature r.1 r.2.1 r.2.2
  | [], t0, t1, r, h => by
    have ht : t0 = t1 := by cases h; rfl
    subst ht
    have heq : applyRegs t0 ([] ++ [r]) =
        match t0.add_signature r.1 r.2.1 r.2.2 with
        | none => none
        | some t' => applyRegs t' [] := rfl
    rw [heq]
    cases hadd : t0.add_signature r.1 r.2.1 r.2.2 with
    | none => rfl
    | some t' => rfl
  | q :: regs, t0, t1, r, h => by
    cases hadd : t0.add_signature q.1 q.2.1 q.2.2 with
    | none =>
      have heq : applyRegs t0 (q :: regs) = none := by simp only [applyRegs, hadd]
      rw [heq] at h
      cases h
    | some tq =>
      have heq : applyRegs t0 (q :: regs) = applyRegs tq regs := by
        simp only [applyRegs, hadd]
      have heq2 : applyRegs t0 ((q :: regs) ++ [r]) = applyRegs tq (regs ++ [r]) := by
        simp only [List.cons_append, applyRegs, hadd]
        rfl
      rw [heq] at h
      rw [heq2]
      exact applyRegs_snoc regs tq t1 r h

theorem builtWF_add [Inhabited T] (t t' : SignatureDecisionTree T)
    (hb : BuiltWF t) (bytes : List Nat) (masks : Option (List Nat)) (val : Option T)
    (hbw : ∀ b ∈ bytes, b < 256)
    (hmw : ∀ m, masks = some m → m.length = bytes.length ∧ ∀ b ∈ m, b < 256)
    (hadd : t.add_signature bytes masks val = some t') : BuiltWF t' := by
  obtain ⟨regs, hwf, happ⟩ := hb
  refine ⟨regs ++ [(bytes, masks, val)], ?_, ?_⟩
  · intro r hr
    rcases List.mem_append.mp hr with h1 | h1
    · exact hwf r h1
    · rw [List.mem_singleton.mp h1]
      refine ⟨hbw, ?_⟩
      cases hmm : masks with
      | none => trivial
      | some m => exact hmw m hmm
  · rw [applyRegs_snoc regs _ t _ happ]
    exact hadd

/-- The amended C9.  Registering the empty pattern appends it to the
root's terminal list; afterwards, for every buffer and every offset
that is non-negative (the original claim's "every offset" fails: a
negative offset can panic, see the counterexample), `get_signature`
returns `Some`. -/
theorem c9_empty_pattern [Inhabited T] (t t' : SignatureDecisionTree T)
    (hbuilt : BuiltWF t) (hnodup : ([] : List Nat) ∉ t.sigs_dup)
    (hadd : t.add_signature [] none none = some t') :
    t'.base_node.term = t.base_node.term ++ [⟨[], [], default⟩] ∧
    ∀ (buf : List Nat) (off? : Option Int), 0 ≤ off?.getD 0 →
      ∃ v, t'.get_signature buf off? = some (some v) := by
  have hshow : t.add_signature [] none none =
      (if ([] : List Nat) ∈ t.sigs_dup then some t
       else
         match add_choice t.base_node ⟨[], [], default⟩ with
         | none => none
         | some root => some ⟨root, ([] : List Nat) :: t.sigs_dup⟩) := rfl
  rw [hshow, if_neg hnodup] at hadd
  have hterm := add_choice_term t.base_node (⟨[], [], default⟩ : SignatureInfo T)
    (Nat.zero_le _)
  rw [hterm] at hadd
  have ht' : t' = ⟨.mk t.base_node.depth t.base_node.subtree_signatures
      t.base_node.choices (t.base_node.term ++ [⟨[], [], default⟩]),
      ([] : List Nat) :: t.sigs_dup⟩ := by
    cases hadd
    rfl
  subst ht'
  constructor
  · rfl
  · intro buf off? hoff
    have hb' : BuiltWF (⟨.mk t.base_node.depth t.base_node.subtree_signatures
        t.base_node.choices (t.base_node.term ++ [⟨[], [], default⟩]),
        ([] : List Nat) :: t.sigs_dup⟩ : SignatureDecisionTree T) := by
      refine builtWF_add t _ hbuilt [] none none (by intro b hb; cases hb)
        (by intro m hm; cases hm) ?_
      rw [hshow, if_neg hnodup, hterm]
    obtain ⟨hall, hwfR, hdepth⟩ := builtWF_good _ hb'
    have hw : (walkMatches _ buf (off?.getD 0)).isSome :=
      getSigLoop_isSome _ hwfR buf (off?.getD 0) hoff _ _ [] hall
        (by rw [hdepth]; exact Nat.le_refl _) (by rw [hdepth]; omega)
    cases hwm : walkMatches (⟨.mk t.base_node.depth t.base_node.subtree_signatures
        t.base_node.choices (t.base_node.term ++ [⟨[], [], default⟩]),
        ([] : List Nat) :: t.sigs_dup⟩ : SignatureDecisionTree T) buf (off?.getD 0) with
    | none =>
      rw [hwm] at hw
      cases hw
    | some ms =>
      obtain ⟨rest, hrest⟩ := walkMatches_extends _ buf (off?.getD 0) ms hwm
      have hne : ms ≠ [] := by
        rw [hrest]
        show (t.base_node.term ++ [(⟨[], [], default⟩ : SignatureInfo T)]) ++ rest ≠ []
        simp
      obtain ⟨x, xs, hxs⟩ := List.exists_cons_of_ne_nil hne
      have heq2 : SignatureDecisionTree.get_signature
          ⟨.mk t.base_node.depth t.base_node.subtree_signatures
            t.base_node.choices (t.base_node.term ++ [⟨[], [], default⟩]),
            ([] : List Nat) :: t.sigs_dup⟩ buf off? =
          if ms.isEmpty then some none
          else some ((sortByLenDesc ms).head?.map SignatureInfo.object) := by
        rw [get_signature_eq_match, hwm]
      rw [heq2, hxs, if_neg (by simp), head?_sortByLenDesc]
      obtain ⟨y, hy⟩ := firstMax_cons_isSome x xs
      exact ⟨y.object, by rw [hy]; rfl⟩

/-- C9 as stated is refuted: after registering a one-byte pattern and
the empty pattern, lookup at offset `-1` panics (embedded `none`), so
`get_signature` does not return `Some` for *every* offset. -/
theorem c9_empty_pattern_counterexample :
    ((SignatureDecisionTree.new.add_signature [0x01] none (some (0 : Nat))).bind
      (fun t => t.add_signature [] none none)).map
      (fun t => t.get_signature [0x01] (some (-1))) = some none := by
  decide

/-- Witness for the amended C9: the empty pattern lands in the seed
index root's terminal list. -/
theorem c9_empty_pattern_witness :
    seedTreeE.base_node.term = seedTree.base_node.term ++
      [(⟨[], [], default⟩ : SignatureInfo (List Nat))] :=
  (c9_empty_pattern seedTree seedTreeE seedTree_builtWF (by decide)
    (opt_eq_some_getD _ _ (by decide))).1

/-! ### Termination bounds (C8): path algebra for the work stack -/

theorem nodeAt_nil (t : TreeNode T) : nodeAt t [] = some t := by
  obtain ⟨d, sigs, cs, tm⟩ := t
  rfl

theorem nodeAt_updAt_self :
    ∀ (p : List Nat) (t m tgt : TreeNode T), nodeAt t p = some tgt →
      nodeAt (updAt t p m) p = some m
  | [], t, m, tgt, _ => by
    obtain ⟨d, sigs, cs, tm⟩ := t
    exact nodeAt_nil m
  | ch :: rest, t, m, tgt, h => by
    obtain ⟨d, sigs, cs, tm⟩ := t
    cases hg : cs.get? ch with
    | none =>
      have heq : nodeAt (TreeNode.mk d sigs cs tm) (ch :: rest) = none := by
        simp only [nodeAt, hg]
      rw [heq] at h
      cases h
    | some o =>
      cases o with
      | none =>
        have heq : nodeAt (TreeNode.mk d sigs cs tm) (ch :: rest) = none := by
          simp only [nodeAt, hg]
        rw [heq] at h
        cases h
      | some c =>
        have hrec : nodeAt c rest = some tgt := by
          have heq : nodeAt (TreeNode.mk d sigs cs tm) (ch :: rest) = nodeAt c rest := by
            simp only [nodeAt, hg]
          rw [heq] at h
          exact h
        have hU : updAt (TreeNode.mk d sigs cs tm) (ch :: rest) m =
            TreeNode.mk d sigs (cs.set ch (some (updAt c rest m))) tm := by
          simp only [updAt, hg]
        have hset : (cs.set ch (some (updAt c rest m))).get? ch =
            some (some (updAt c rest m)) := by
          rw [List.get?_set_eq, hg]
          rfl
        have hL : nodeAt (TreeNode.mk d sigs (cs.set ch (some (updAt c rest m))) tm)
            (ch :: rest) = nodeAt (updAt c rest m) rest := by
          simp only [nodeAt, hset]
        rw [hU, hL]
        exact nodeAt_updAt_self rest c m tgt hrec

theorem nodeAt_append_one :
    ∀ (p : List Nat) (t : TreeNode T) (ch : Nat),
      nodeAt t (p ++ [ch]) = (nodeAt t p).bind fun n =>
        match n.choices.get? ch with
        | some (some c) => some c
        | _ => none
  | [], t, ch => by
    obtain ⟨d, sigs, cs, tm⟩ := t
    have hR : (nodeAt (TreeNode.mk d sigs cs tm) []).bind
        (fun n => match n.choices.get? ch with
          | some (some c) => some c
          | _ => none) =
        match cs.get? ch with
        | some (some c) => some c
        | _ => none := rfl
    rw [show ([] : List Nat) ++ [ch] = [ch] from rfl, hR]
    cases hg : cs.get? ch with
    | none => simp only [nodeAt, hg]
    | some o =>
      cases o with
      | none => simp only [nodeAt, hg]
      | some c =>
        have hL : nodeAt (TreeNode.mk d sigs cs tm) [ch] = nodeAt c [] := by
          simp only [nodeAt, hg]
        rw [hL, nodeAt_nil]
  | ch' :: rest, t, ch => by
    obtain ⟨d, sigs, cs, tm⟩ := t
    cases hg : cs.get? ch' with
    | none =>
      have hL : nodeAt (TreeNode.mk d sigs cs tm) ((ch' :: rest) ++ [ch]) = none := by
        simp only [List.cons_append, List.append_eq, nodeAt, hg]
      have hR : nodeAt (TreeNode.mk d sigs cs tm) (ch' :: rest) = none := by
        simp only [nodeAt, hg]
      rw [hL, hR]
      rfl
    | some o =>
      cases o with
      | none =>
        have hL : nodeAt (TreeNode.mk d sigs cs tm) ((ch' :: rest) ++ [ch]) = none := by
          simp only [List.cons_append, List.append_eq, nodeAt, hg]
        have hR : nodeAt (TreeNode.mk d sigs cs tm) (ch' :: rest) = none := by
          simp only [nodeAt, hg]
        rw [hL, hR]
        rfl
      | some c =>
        have hL : nodeAt (TreeNode.mk d sigs cs tm) ((ch' :: rest) ++ [ch]) =
            nodeAt c (rest ++ [ch]) := by
          simp only [List.cons_append, List.append_eq, nodeAt, hg]
        have hR : nodeAt (TreeNode.mk d sigs cs tm) (ch' :: rest) = nodeAt c rest := by
          simp only [nodeAt, hg]
        rw [hL, hR]
        exact nodeAt_append_one rest c ch

theorem nodeAt_updAt_sibling :
    ∀ (p : List Nat) (t m : TreeNode T) (i j : Nat), i ≠ j →
      nodeAt (updAt t (p ++ [i]) m) (p ++ [j]) = nodeAt t (p ++ [j])
  | [], t, m, i, j, hij => by
    obtain ⟨d, sigs, cs, tm⟩ := t
    cases hg : cs.get? i with
    | none =>
      have hU : updAt (TreeNode.mk d sigs cs tm) ([] ++ [i]) m =
          TreeNode.mk d sigs cs tm := by
        simp only [List.nil_append, List.append_eq, updAt, hg]
      rw [hU]
    | some o =>
      cases o with
      | none =>
        have hU : updAt (TreeNode.mk d sigs cs tm) ([] ++ [i]) m =
            TreeNode.mk d sigs cs tm := by
          simp only [List.nil_append, List.append_eq, updAt, hg]
        rw [hU]
      | some c =>
        have hU : updAt (TreeNode.mk d sigs cs tm) ([] ++ [i]) m =
            TreeNode.mk d sigs (cs.set i (some (updAt c [] m))) tm := by
          simp only [List.nil_append, List.append_eq, updAt, hg]
        rw [hU]
        have hset : (cs.set i (some (updAt c [] m))).get? j = cs.get? j :=
          List.get?_set_ne _ _ hij
        simp only [List.nil_append, nodeAt, hset]
  | ch :: p', t, m, i, j, hij => by
    obtain ⟨d, sigs, cs, tm⟩ := t
    cases hg : cs.get? ch with
    | none =>
      have hU : updAt (TreeNode.mk d sigs cs tm) ((ch :: p') ++ [i]) m =
          TreeNode.mk d sigs cs tm := by
        simp only [List.cons_append, List.append_eq, updAt, hg]
      rw [hU]
    | some o =>
      cases o with
      | none =>
        have hU : updAt (TreeNode.mk d sigs cs tm) ((ch :: p') ++ [i]) m =
            TreeNode.mk d sigs cs tm := by
          simp only [List.cons_append, List.append_eq, updAt, hg]
        rw [hU]
      | some c =>
        have hU : updAt (TreeNode.mk d sigs cs tm) ((ch :: p') ++ [i]) m =
            TreeNode.mk d sigs (cs.set ch (some (updAt c (p' ++ [i]) m))) tm := by
          simp only [List.cons_append, List.append_eq, updAt, hg]
        rw [hU]
        have hset : (cs.set ch (some (updAt c (p' ++ [i]) m))).get? ch =
            some (some (updAt c (p' ++ [i]) m)) := by
          rw [List.get?_set_eq, hg]
          rfl
        have hL : nodeAt
            (TreeNode.mk d sigs (cs.set ch (some (updAt c (p' ++ [i]) m))) tm)
            ((ch :: p') ++ [j]) = nodeAt (updAt c (p' ++ [i]) m) (p' ++ [j]) := by
          simp only [List.cons_append, List.append_eq, nodeAt, hset]
        have hR : nodeAt (TreeNode.mk d sigs cs tm) ((ch :: p') ++ [j]) =
            nodeAt c (p' ++ [j]) := by
          simp only [List.cons_append, List.append_eq, nodeAt, hg]
        rw [hL, hR]
        exact nodeAt_updAt_sibling p' c m i j hij

theorem stepAt_eq_updAt :
    ∀ (p : List Nat) (t tgt : TreeNode T) (sig : SignatureInfo T),
      nodeAt t p = some tgt →
      stepAt t p sig = (stepNode tgt sig).map fun r =>
        (updAt t p r.1, r.2.map fun q => (p ++ [q.1], q.2))
  | [], t, tgt, sig, h => by
    obtain ⟨d, sigs, cs, tm⟩ := t
    have htgt : TreeNode.mk d sigs cs tm = tgt := by
      have h' : some (TreeNode.mk d sigs cs tm) = some tgt := h
      cases h'
      rfl
    subst htgt
    cases hs : stepNode (TreeNode.mk d sigs cs tm) sig with
    | none =>
      have hL : stepAt (TreeNode.mk d sigs cs tm) [] sig = none := by
        simp only [stepAt, hs]
      rw [hL]
      rfl
    | some pr =>
      obtain ⟨n', ps⟩ := pr
      have hL : stepAt (TreeNode.mk d sigs cs tm) [] sig =
          some (n', ps.map fun q => ([q.1], q.2)) := by
        simp only [stepAt, hs]
      rw [hL]
      rfl
  | ch :: rest, t, tgt, sig, h => by
    obtain ⟨d, sigs, cs, tm⟩ := t
    cases hg : cs.get? ch with
    | none =>
      have heq : nodeAt (TreeNode.mk d sigs cs tm) (ch :: rest) = none := by
        simp only [nodeAt, hg]
      rw [heq] at h
      cases h
    | some o =>
      cases o with
      | none =>
        have heq : nodeAt (TreeNode.mk d sigs cs tm) (ch :: rest) = none := by
          simp only [nodeAt, hg]
        rw [heq] at h
        cases h
      | some c =>
        have hn : nodeAt c rest = some tgt := by
          have heq : nodeAt (TreeNode.mk d sigs cs tm) (ch :: rest) = nodeAt c rest := by
            simp only [nodeAt, hg]
          rw [heq] at h
          exact h
        have hrec := stepAt_eq_updAt rest c tgt sig hn
        cases hs : stepNode tgt sig with
        | none =>
          have hcr : stepAt c rest sig = none := by
            rw [hrec, hs]
            rfl
          have hL : stepAt (TreeNode.mk d sigs cs tm) (ch :: rest) sig = none := by
            simp only [stepAt, hg, hcr]
          rw [hL]
          rfl
        | some pr =>
          obtain ⟨n', ps⟩ := pr
          have hcr : stepAt c rest sig =
              some (updAt c rest n', ps.map fun q => (rest ++ [q.1], q.2)) := by
            rw [hrec, hs]
            rfl
          have hL : stepAt (TreeNode.mk d sigs cs tm) (ch :: rest) sig =
              some (TreeNode.mk d sigs (cs.set ch (some (updAt c rest n'))) tm,
                (ps.map fun q => (rest ++ [q.1], q.2)).map fun q => (ch :: q.1, q.2)) := by
            simp only [stepAt, hg, hcr]
          have hU : updAt (TreeNode.mk d sigs cs tm) (ch :: rest) n' =
              TreeNode.mk d sigs (cs.set ch (some (updAt c rest n'))) tm := by
            simp only [updAt, hg]
          rw [hL]
          simp only [Option.map_some', hU, List.map_map]
          rfl

theorem stepNode_term (d : Nat) (sigs : List (SignatureInfo T))
    (cs : List (Option (TreeNode T))) (tm : List (SignatureInfo T))
    (sig : SignatureInfo T) (h : sig.bytes.length ≤ d) :
    stepNode (.mk d sigs cs tm) sig = some (.mk d sigs cs (tm ++ [sig]), []) := by
  have hnot : ¬ sig.bytes.length > d := by omega
  simp [stepNode, hnot]

theorem stepNode_route (d : Nat) (sigs : List (SignatureInfo T))
    (cs : List (Option (TreeNode T))) (tm : List (SignatureInfo T))
    (sig : SignatureInfo T) (ch : Nat)
    (hlen : d < sig.bytes.length) (h2 : 2 ≤ sigs.length)
    (hb : sig.bytes.get? d = some ch) (hch : ch < cs.length) :
    ∃ (cs' : List (Option (TreeNode T))) (c : TreeNode T),
      stepNode (.mk d sigs cs tm) sig =
        some (.mk d (sigs ++ [sig]) cs' tm, [(ch, sig)]) ∧
      cs'.get? ch = some (some c) ∧
      (cs.get? ch = some (some c) ∨ c = TreeNode.fresh (d + 1)) := by
  have h0 : ¬ sigs.length = 0 := by omega
  have h1 : ¬ sigs.length = 1 := by omega
  have hbd : sig.bytes[d] = ch := by
    rw [List.get?_eq_getElem?, List.getElem?_eq_getElem hlen, Option.some_inj] at hb
    exact hb
  cases hslot : cs.get? ch with
  | none =>
    exfalso
    rw [List.get?_eq_none] at hslot
    omega
  | some o =>
    cases o with
    | some c =>
      have he : ensureChild d cs ch = some cs := by simp only [ensureChild, hslot]
      refine ⟨cs, c, ?_, hslot, Or.inl rfl⟩
      simp [stepNode, hlen, h0, h1, hb, hbd, he]
    | none =>
      have he : ensureChild d cs ch =
          some (cs.set ch (some (TreeNode.fresh (d + 1)))) := by
        simp only [ensureChild, hslot]
      refine ⟨cs.set ch (some (TreeNode.fresh (d + 1))), TreeNode.fresh (d + 1),
        ?_, ?_, Or.inr rfl⟩
      · simp [stepNode, hlen, h0, h1, hb, hbd, he]
      · rw [List.get?_set_eq, hslot]
        rfl

theorem chooseLoop_mem (buf : List Nat) (off : Int) (d : Nat)
    (cs : List (Option (TreeNode T))) :
    ∀ (sigs : List (SignatureInfo T)) (c : TreeNode T),
      chooseLoop buf off d cs sigs = some (some c) → some c ∈ cs
  | [], c, h => by
    simp [chooseLoop] at h
  | sig :: rest, c, h => by
    cases hs : scanStep buf off d sig with
    | none =>
      have heq : chooseLoop buf off d cs (sig :: rest) = none := by
        simp only [chooseLoop, hs]
      rw [heq] at h
      cases h
    | some o =>
      cases o with
      | none =>
        have heq : chooseLoop buf off d cs (sig :: rest) =
            chooseLoop buf off d cs rest := by
          simp only [chooseLoop, hs]
        rw [heq] at h
        exact chooseLoop_mem buf off d cs rest c h
      | some masked =>
        have heq : chooseLoop buf off d cs (sig :: rest) = cs.get? masked := by
          simp only [chooseLoop, hs]
        rw [heq] at h
        exact List.get?_mem h

theorem stepAt_push_paths :
    ∀ (p : List Nat) (t : TreeNode T) (sig : SignatureInfo T) (t' : TreeNode T)
      (ps : List (List Nat × SignatureInfo T)),
      stepAt t p sig = some (t', ps) →
      ∀ q ∈ ps, ∃ ch, q.1 = p ++ [ch]
  | [], t, sig, t', ps, h, q, hq => by
    cases hs : stepNode t sig with
    | none =>
      have heq : stepAt t [] sig = none := by simp only [stepAt, hs]
      rw [heq] at h
      cases h
    | some pr =>
      obtain ⟨n₁, ps₁⟩ := pr
      have heq : stepAt t [] sig = some (n₁, ps₁.map fun r => ([r.1], r.2)) := by
        simp only [stepAt, hs]
      rw [heq] at h
      have hinj : t' = n₁ ∧ ps = ps₁.map fun r => ([r.1], r.2) := by
        cases h
        exact ⟨rfl, rfl⟩
      obtain ⟨-, rfl⟩ := hinj
      obtain ⟨r, hr, hrq⟩ := List.mem_map.mp hq
      refine ⟨r.1, ?_⟩
      rw [← hrq]
      rfl
  | ch :: rest, t, sig, t', ps, h, q, hq => by
    obtain ⟨d, sigs, cs, tm⟩ := t
    cases hg : cs.get? ch with
    | none =>
      have heq : stepAt (TreeNode.mk d sigs cs tm) (ch :: rest) sig = none := by
        simp only [stepAt, hg]
      rw [heq] at h
      cases h
    | some o =>
      cases o with
      | none =>
        have heq : stepAt (TreeNode.mk d sigs cs tm) (ch :: rest) sig = none := by
          simp only [stepAt, hg]
        rw [heq] at h
        cases h
      | some child =>
        cases hsr : stepAt child rest sig with
        | none =>
          have heq : stepAt (TreeNode.mk d sigs cs tm) (ch :: rest) sig = none := by
            simp only [stepAt, hg, hsr]
          rw [heq] at h
          cases h
        | some pr =>
          obtain ⟨child', ps₁⟩ := pr
          have heq : stepAt (TreeNode.mk d sigs cs tm) (ch :: rest) sig =
              some (TreeNode.mk d sigs (cs.set ch (some child')) tm,
                ps₁.map fun r => (ch :: r.1, r.2)) := by
            simp only [stepAt, hg, hsr]
          rw [heq] at h
          have hinj : t' = TreeNode.mk d sigs (cs.set ch (some child')) tm ∧
              ps = ps₁.map fun r => (ch :: r.1, r.2) := by
            cases h
            exact ⟨rfl, rfl⟩
          obtain ⟨-, rfl⟩ := hinj
          obtain ⟨r, hr, hrq⟩ := List.mem_map.mp hq
          obtain ⟨ch₂, hch₂⟩ := stepAt_push_paths rest child sig child' ps₁ hsr r hr
          refine ⟨ch₂, ?_⟩
          rw [← hrq]
          show ch :: r.1 = (ch :: rest) ++ [ch₂]
          rw [hch₂]
          rfl

theorem addLoop_final_step (f' : Nat) (t₁ : TreeNode T) (pA : List Nat)
    (a : SignatureInfo T) (dC : Nat) (csC : List (Option (TreeNode T)))
    (tmC : List (SignatureInfo T))
    (hn : nodeAt t₁ pA = some (TreeNode.mk dC [] csC tmC)) :
    (addLoop (f' + 1) t₁ [(pA, a)]).isSome = true := by
  by_cases hla : a.bytes.length ≤ dC
  · have hs := stepNode_term dC [] csC tmC a hla
    have hstep : stepAt t₁ pA a =
        some (updAt t₁ pA (TreeNode.mk dC [] csC (tmC ++ [a])), []) := by
      rw [stepAt_eq_updAt pA t₁ _ a hn, hs]
      rfl
    rw [addLoop_cons, hstep]
    show (addLoop f' (updAt t₁ pA (TreeNode.mk dC [] csC (tmC ++ [a]))) []).isSome = true
    rw [addLoop_nil]
    rfl
  · have hs := stepNode_defer dC csC tmC a (by omega)
    have hstep : stepAt t₁ pA a =
        some (updAt t₁ pA (TreeNode.mk dC [a] csC tmC), []) := by
      rw [stepAt_eq_updAt pA t₁ _ a hn, hs]
      rfl
    rw [addLoop_cons, hstep]
    show (addLoop f' (updAt t₁ pA (TreeNode.mk dC [a] csC tmC)) []).isSome = true
    rw [addLoop_nil]
    rfl

/-- The work-stack loop of `add_choice` completes within fuel `2*m + 2`
whenever the pending pattern's remaining length is at most `m`:
conjunct one handles a single stack entry, conjunct two the
two-sibling stack produced by a split. -/
theorem addLoop_chain {R : List (SignatureInfo T)} (hwfR : ∀ s ∈ R, SigWF s) :
    ∀ m : Nat,
      (∀ (fuel : Nat) (t : TreeNode T) (p : List Nat) (x : SignatureInfo T)
          (tgt : TreeNode T),
        AllNodes (NodeOKR R) t →
        nodeAt t p = some tgt →
        x ∈ R →
        x.bytes.length + 1 ≤ m + tgt.depth →
        2 * m + 2 ≤ fuel →
        (addLoop fuel t [(p, x)]).isSome = true) ∧
      (∀ (fuel : Nat) (t : TreeNode T) (p : List Nat) (chB chA : Nat)
          (b a : SignatureInfo T) (nB nA : TreeNode T),
        AllNodes (NodeOKR R) t →
        nodeAt t (p ++ [chB]) = some nB →
        nodeAt t (p ++ [chA]) = some nA →
        nB.subtree_signatures = [] →
        nA.subtree_signatures = [] →
        b ∈ R → a ∈ R →
        min a.bytes.length b.bytes.length + 1 ≤ m + nB.depth →
        2 * m + 2 ≤ fuel →
        (addLoop fuel t [(p ++ [chB], b), (p ++ [chA], a)]).isSome = true) := by
  intro m
  induction m using Nat.strong_induction_on with
  | _ m IH =>
    constructor
    · intro fuel t p x tgt hall hp hxR hmeas hfuel
      obtain ⟨d, sigs, cs, tm⟩ := tgt
      obtain ⟨f, rfl⟩ : ∃ f, fuel = f + 1 := ⟨fuel - 1, by omega⟩
      have hok : NodeOKR R (TreeNode.mk d sigs cs tm) :=
        (AllNodes_nodeAt p t _ hall hp).self
      have hmeas' : x.bytes.length + 1 ≤ m + d := hmeas
      by_cases hlen : x.bytes.length ≤ d
      · have hs := stepNode_term d sigs cs tm x hlen
        have hstep : stepAt t p x =
            some (updAt t p (TreeNode.mk d sigs cs (tm ++ [x])), []) := by
          rw [stepAt_eq_updAt p t _ x hp, hs]
          rfl
        rw [addLoop_cons, hstep]
        show (addLoop f (updAt t p (TreeNode.mk d sigs cs (tm ++ [x]))) []).isSome = true
        rw [addLoop_nil]
        rfl
      · have hd : d < x.bytes.length := by omega
        have hwx := hwfR x hxR
        have hcx : x.bytes.getD d 0 < 256 := by
          have hmem : x.bytes.getD d 0 ∈ x.bytes :=
            List.get?_mem (get?_eq_some_getD x.bytes d hd)
          exact hwx.2.1 _ hmem
        cases sigs with
        | nil =>
          have hs := stepNode_defer d cs tm x hd
          have hstep : stepAt t p x =
              some (updAt t p (TreeNode.mk d [x] cs tm), []) := by
            rw [stepAt_eq_updAt p t _ x hp, hs]
            rfl
          rw [addLoop_cons, hstep]
          show (addLoop f (updAt t p (TreeNode.mk d [x] cs tm)) []).isSome = true
          rw [addLoop_nil]
          rfl
        | cons s1 rest1 =>
          cases rest1 with
          | nil =>
            have hcs256 : cs.length = 256 := hok.1
            have hs1 : d < s1.bytes.length ∧ s1 ∈ R :=
              hok.2.1 s1 (List.mem_cons_self s1 [])
            have hnone : ∀ c ∈ cs, c = none :=
              fun c hc => hok.2.2.1 (Nat.le_refl 1) c hc
            have hco : s1.bytes.getD d 0 < 256 := by
              have hmem : s1.bytes.getD d 0 ∈ s1.bytes :=
                List.get?_mem (get?_eq_some_getD s1.bytes d hs1.1)
              exact (hwfR s1 hs1.2).2.1 _ hmem
            obtain ⟨cs', hsn, hcs'len, hslot_o, hslot_x⟩ :=
              stepNode_split d s1 x cs tm hs1.1 hd hco hcx hcs256 hnone
            have hstep : stepAt t p x =
                some (updAt t p (TreeNode.mk d [s1, x] cs' tm),
                  [(p ++ [s1.bytes.getD d 0], s1), (p ++ [x.bytes.getD d 0], x)]) := by
              rw [stepAt_eq_updAt p t _ x hp, hsn]
              rfl
            rw [addLoop_cons, hstep]
            show (addLoop f (updAt t p (TreeNode.mk d [s1, x] cs' tm))
              [(p ++ [x.bytes.getD d 0], x),
               (p ++ [s1.bytes.getD d 0], s1)]).isSome = true
            have hall₁ : AllNodes (NodeOKR R) (updAt t p (TreeNode.mk d [s1, x] cs' tm)) :=
              (stepAt_preserves x p t _ _ hstep hall (Or.inl hxR)).1
            have hp₁ : nodeAt (updAt t p (TreeNode.mk d [s1, x] cs' tm)) p =
                some (TreeNode.mk d [s1, x] cs' tm) :=
              nodeAt_updAt_self p t _ _ hp
            have hnB : nodeAt (updAt t p (TreeNode.mk d [s1, x] cs' tm))
                (p ++ [x.bytes.getD d 0]) = some (TreeNode.fresh (d + 1)) := by
              rw [nodeAt_append_one, hp₁]
              show (match cs'.get? (x.bytes.getD d 0) with
                | some (some c) => some c
                | _ => none) = some (TreeNode.fresh (d + 1))
              rw [hslot_x]
            have hnA : nodeAt (updAt t p (TreeNode.mk d [s1, x] cs' tm))
                (p ++ [s1.bytes.getD d 0]) = some (TreeNode.fresh (d + 1)) := by
              rw [nodeAt_append_one, hp₁]
              show (match cs'.get? (s1.bytes.getD d 0) with
                | some (some c) => some c
                | _ => none) = some (TreeNode.fresh (d + 1))
              rw [hslot_o]
            refine (IH (m - 1) (by omega)).2 f _ p (x.bytes.getD d 0) (s1.bytes.getD d 0)
              x s1 (TreeNode.fresh (d + 1)) (TreeNode.fresh (d + 1)) hall₁ hnB hnA rfl rfl
              hxR hs1.2 ?_ ?_
            · have hdf : (TreeNode.fresh (d + 1) : TreeNode T).depth = d + 1 := rfl
              have hmin := Nat.min_le_right s1.bytes.length x.bytes.length
              rw [hdf]
              omega
            · omega
          | cons s2 rest2 =>
            have hcs256 : cs.length = 256 := hok.1
            have hb : x.bytes.get? d = some (x.bytes.getD d 0) :=
              get?_eq_some_getD _ _ hd
            obtain ⟨cs', c, hsn, hslot, hcold⟩ :=
              stepNode_route d (s1 :: s2 :: rest2) cs tm x (x.bytes.getD d 0) hd
                (by simp only [List.length_cons]; omega) hb
                (by rw [hcs256]; exact hcx)
            have hstep : stepAt t p x =
                some (updAt t p (TreeNode.mk d ((s1 :: s2 :: rest2) ++ [x]) cs' tm),
                  [(p ++ [x.bytes.getD d 0], x)]) := by
              rw [stepAt_eq_updAt p t _ x hp, hsn]
              rfl
            rw [addLoop_cons, hstep]
            show (addLoop f (updAt t p (TreeNode.mk d ((s1 :: s2 :: rest2) ++ [x]) cs' tm))
              [(p ++ [x.bytes.getD d 0], x)]).isSome = true
            have hall₁ : AllNodes (NodeOKR R)
                (updAt t p (TreeNode.mk d ((s1 :: s2 :: rest2) ++ [x]) cs' tm)) :=
              (stepAt_preserves x p t _ _ hstep hall (Or.inl hxR)).1
            have hp₁ : nodeAt (updAt t p (TreeNode.mk d ((s1 :: s2 :: rest2) ++ [x]) cs' tm))
                p = some (TreeNode.mk d ((s1 :: s2 :: rest2) ++ [x]) cs' tm) :=
              nodeAt_updAt_self p t _ _ hp
            have hnc : nodeAt (updAt t p (TreeNode.mk d ((s1 :: s2 :: rest2) ++ [x]) cs' tm))
                (p ++ [x.bytes.getD d 0]) = some c := by
              rw [nodeAt_append_one, hp₁]
              show (match cs'.get? (x.bytes.getD d 0) with
                | some (some c) => some c
                | _ => none) = some c
              rw [hslot]
            have hcdep : c.depth = d + 1 := by
              rcases hcold with h1 | h1
              · exact hok.2.2.2 _ (List.get?_mem h1) c rfl
              · rw [h1]
                rfl
            exact (IH (m - 1) (by omega)).1 f _ (p ++ [x.bytes.getD d 0]) x c hall₁ hnc
              hxR (by rw [hcdep]; omega) (by omega)
    · intro fuel t p chB chA b a nB nA hall hpB hpA hsB hsA hbR haR hmeas hfuel
      obtain ⟨f, rfl⟩ : ∃ f, fuel = f + 1 := ⟨fuel - 1, by omega⟩
      obtain ⟨dB, sigsB, csB, tmB⟩ := nB
      have hsB' : sigsB = [] := hsB
      subst hsB'
      obtain ⟨dA, sigsA, csA, tmA⟩ := nA
      have hsA' : sigsA = [] := hsA
      subst hsA'
      have hmeas' : min a.bytes.length b.bytes.length + 1 ≤ m + dB := hmeas
      obtain ⟨f', rfl⟩ : ∃ f', f = f' + 1 := ⟨f - 1, by omega⟩
      by_cases hlb : b.bytes.length ≤ dB
      · have hs := stepNode_term dB [] csB tmB b hlb
        have hstep : stepAt t (p ++ [chB]) b =
            some (updAt t (p ++ [chB]) (TreeNode.mk dB [] csB (tmB ++ [b])), []) := by
          rw [stepAt_eq_updAt (p ++ [chB]) t _ b hpB, hs]
          rfl
        rw [addLoop_cons, hstep]
        show (addLoop (f' + 1) (updAt t (p ++ [chB]) (TreeNode.mk dB [] csB (tmB ++ [b])))
          [(p ++ [chA], a)]).isSome = true
        by_cases hAB : chA = chB
        · subst hAB
          have hnode : nodeAt (updAt t (p ++ [chA]) (TreeNode.mk dB [] csB (tmB ++ [b])))
              (p ++ [chA]) = some (TreeNode.mk dB [] csB (tmB ++ [b])) :=
            nodeAt_updAt_self (p ++ [chA]) t _ _ hpB
          exact addLoop_final_step f' _ (p ++ [chA]) a dB csB (tmB ++ [b]) hnode
        · have hnode : nodeAt (updAt t (p ++ [chB]) (TreeNode.mk dB [] csB (tmB ++ [b])))
              (p ++ [chA]) = some (TreeNode.mk dA [] csA tmA) := by
            rw [nodeAt_updAt_sibling p t _ chB chA (fun h => hAB h.symm)]
            exact hpA
          exact addLoop_final_step f' _ (p ++ [chA]) a dA csA tmA hnode
      · have hs := stepNode_defer dB csB tmB b (by omega)
        have hstep : stepAt t (p ++ [chB]) b =
            some (updAt t (p ++ [chB]) (TreeNode.mk dB [b] csB tmB), []) := by
          rw [stepAt_eq_updAt (p ++ [chB]) t _ b hpB, hs]
          rfl
        rw [addLoop_cons, hstep]
        show (addLoop (f' + 1) (updAt t (p ++ [chB]) (TreeNode.mk dB [b] csB tmB))
          [(p ++ [chA], a)]).isSome = true
        have hall₁ : AllNodes (NodeOKR R)
            (updAt t (p ++ [chB]) (TreeNode.mk dB [b] csB tmB)) :=
          (stepAt_preserves b (p ++ [chB]) t _ _ hstep hall (Or.inl hbR)).1
        by_cases hAB : chA = chB
        · subst hAB
          have hnode : nodeAt (updAt t (p ++ [chA]) (TreeNode.mk dB [b] csB tmB))
              (p ++ [chA]) = some (TreeNode.mk dB [b] csB tmB) :=
            nodeAt_updAt_self (p ++ [chA]) t _ _ hpB
          by_cases hla : a.bytes.length ≤ dB
          · have hs₂ := stepNode_term dB [b] csB tmB a hla
            have hstep₂ : stepAt (updAt t (p ++ [chA]) (TreeNode.mk dB [b] csB tmB))
                (p ++ [chA]) a =
                some (updAt (updAt t (p ++ [chA]) (TreeNode.mk dB [b] csB tmB))
                  (p ++ [chA]) (TreeNode.mk dB [b] csB (tmB ++ [a])), []) := by
              rw [stepAt_eq_updAt (p ++ [chA]) _ _ a hnode, hs₂]
              rfl
            rw [addLoop_cons, hstep₂]
            show (addLoop f' (updAt (updAt t (p ++ [chA]) (TreeNode.mk dB [b] csB tmB))
              (p ++ [chA]) (TreeNode.mk dB [b] csB (tmB ++ [a]))) []).isSome = true
            rw [addLoop_nil]
            rfl
          · have hok₁ : NodeOKR R (TreeNode.mk dB [b] csB tmB) :=
              (AllNodes_nodeAt (p ++ [chA]) _ _ hall₁ hnode).self
            have hcsB256 : csB.length = 256 := hok₁.1
            have hnone : ∀ c ∈ csB, c = none :=
              fun c hc => hok₁.2.2.1 (Nat.le_refl 1) c hc
            have hdb : dB < b.bytes.length := by omega
            have hda : dB < a.bytes.length := by omega
            have hcb : b.bytes.getD dB 0 < 256 := by
              have hmem : b.bytes.getD dB 0 ∈ b.bytes :=
                List.get?_mem (get?_eq_some_getD b.bytes dB hdb)
              exact (hwfR b hbR).2.1 _ hmem
            have hca : a.bytes.getD dB 0 < 256 := by
              have hmem : a.bytes.getD dB 0 ∈ a.bytes :=
                List.get?_mem (get?_eq_some_getD a.bytes dB hda)
              exact (hwfR a haR).2.1 _ hmem
            obtain ⟨cs₂, hsn₂, hcs₂len, hslot_b, hslot_a⟩ :=
              stepNode_split dB b a csB tmB hdb hda hcb hca hcsB256 hnone
            have hstep₂ : stepAt (updAt t (p ++ [chA]) (TreeNode.mk dB [b] csB tmB))
                (p ++ [chA]) a =
                some (updAt (updAt t (p ++ [chA]) (TreeNode.mk dB [b] csB tmB))
                    (p ++ [chA]) (TreeNode.mk dB [b, a] cs₂ tmB),
                  [((p ++ [chA]) ++ [b.bytes.getD dB 0], b),
                   ((p ++ [chA]) ++ [a.bytes.getD dB 0], a)]) := by
              rw [stepAt_eq_updAt (p ++ [chA]) _ _ a hnode, hsn₂]
              rfl
            rw [addLoop_cons, hstep₂]
            show (addLoop f' (updAt (updAt t (p ++ [chA]) (TreeNode.mk dB [b] csB tmB))
                (p ++ [chA]) (TreeNode.mk dB [b, a] cs₂ tmB))
              [((p ++ [chA]) ++ [a.bytes.getD dB 0], a),
               ((p ++ [chA]) ++ [b.bytes.getD dB 0], b)]).isSome = true
            have hall₂ : AllNodes (NodeOKR R)
                (updAt (updAt t (p ++ [chA]) (TreeNode.mk dB [b] csB tmB))
                  (p ++ [chA]) (TreeNode.mk dB [b, a] cs₂ tmB)) :=
              (stepAt_preserves a (p ++ [chA]) _ _ _ hstep₂ hall₁ (Or.inl haR)).1
            have hp₂ : nodeAt (updAt (updAt t (p ++ [chA]) (TreeNode.mk dB [b] csB tmB))
                (p ++ [chA]) (TreeNode.mk dB [b, a] cs₂ tmB)) (p ++ [chA]) =
                some (TreeNode.mk dB [b, a] cs₂ tmB) :=
              nodeAt_updAt_self (p ++ [chA]) _ _ _ hnode
            have hnB₂ : nodeAt (updAt (updAt t (p ++ [chA]) (TreeNode.mk dB [b] csB tmB))
                (p ++ [chA]) (TreeNode.mk dB [b, a] cs₂ tmB))
                ((p ++ [chA]) ++ [a.bytes.getD dB 0]) =
                some (TreeNode.fresh (dB + 1)) := by
              rw [nodeAt_append_one, hp₂]
              show (match cs₂.get? (a.bytes.getD dB 0) with
                | some (some c) => some c
                | _ => none) = some (TreeNode.fresh (dB + 1))
              rw [hslot_a]
            have hnA₂ : nodeAt (updAt (updAt t (p ++ [chA]) (TreeNode.mk dB [b] csB tmB))
                (p ++ [chA]) (TreeNode.mk dB [b, a] cs₂ tmB))
                ((p ++ [chA]) ++ [b.bytes.getD dB 0]) =
                some (TreeNode.fresh (dB + 1)) := by
              rw [nodeAt_append_one, hp₂]
              show (match cs₂.get? (b.bytes.getD dB 0) with
                | some (some c) => some c
                | _ => none) = some (TreeNode.fresh (dB + 1))
              rw [hslot_b]
            refine (IH (m - 1) (by omega)).2 f' _ (p ++ [chA]) (a.bytes.getD dB 0)
              (b.bytes.getD dB 0) a b (TreeNode.fresh (dB + 1)) (TreeNode.fresh (dB + 1))
              hall₂ hnB₂ hnA₂ rfl rfl haR hbR ?_ ?_
            · have hdf : (TreeNode.fresh (dB + 1) : TreeNode T).depth = dB + 1 := rfl
              have hmin := Nat.min_comm a.bytes.length b.bytes.length
              rw [hdf]
              omega
            · omega
        · have hnode : nodeAt (updAt t (p ++ [chB]) (TreeNode.mk dB [b] csB tmB))
              (p ++ [chA]) = some (TreeNode.mk dA [] csA tmA) := by
            rw [nodeAt_updAt_sibling p t _ chB chA (fun h => hAB h.symm)]
            exact hpA
          exact addLoop_final_step f' _ (p ++ [chA]) a dA csA tmA hnode

/-- On an index satisfying the build invariant, `add_choice` completes
within its definitional fuel `2 * len(bytes) + 4`. -/
theorem add_choice_total (t : SignatureDecisionTree T) (hg : GoodTree t)
    (sig : SignatureInfo T) (hwf : SigWF sig) :
    (add_choice t.base_node sig).isSome = true := by
  obtain ⟨hall, hwfR, hdepth⟩ := hg
  have hwfR' : ∀ s ∈ t.base_node.subtree_signatures ++ [sig], SigWF s := by
    intro s hs
    rcases List.mem_append.mp hs with h1 | h1
    · exact hwfR s h1
    · rw [List.mem_singleton.mp h1]
      exact hwf
  have hall' : AllNodes (NodeOKR (t.base_node.subtree_signatures ++ [sig]))
      t.base_node :=
    AllNodes.mono
      (fun n hn => NodeOKR_mono (fun s hs => List.mem_append.mpr (Or.inl hs)) n hn) hall
  show (addLoop (2 * sig.bytes.length + 4) t.base_node [([], sig)]).isSome = true
  exact (addLoop_chain hwfR' (sig.bytes.length + 1)).1 (2 * sig.bytes.length + 4)
    t.base_node [] sig t.base_node hall' (nodeAt_nil _)
    (List.mem_append.mpr (Or.inr (List.mem_singleton.mpr rfl)))
    (by omega) (by omega)

/-- A well-formed registration on an API-built index never exhausts the
work loop: `add_signature` returns `some`. -/
theorem add_signature_total [Inhabited T] (t : SignatureDecisionTree T) (h : BuiltWF t)
    (bytes : List Nat) (masks : Option (List Nat)) (val : Option T)
    (hb : ∀ b ∈ bytes, b < 256)
    (hm : ∀ m, masks = some m → m.length = bytes.length ∧ ∀ b ∈ m, b < 256) :
    (t.add_signature bytes masks val).isSome = true := by
  have hg := builtWF_good t h
  have hrm : (masks.getD (List.replicate bytes.length 0xff)).length = bytes.length ∧
      ∀ b ∈ masks.getD (List.replicate bytes.length 0xff), b < 256 := by
    cases masks with
    | none =>
      refine ⟨List.length_replicate _ _, ?_⟩
      intro b hb'
      rw [List.eq_of_mem_replicate hb']
      omega
    | some m => simpa using hm m rfl
  have hshow : t.add_signature bytes masks val =
      (if bytes ++ masks.getD (List.replicate bytes.length 0xff) ∈ t.sigs_dup then some t
       else
         match add_choice t.base_node
             ⟨bytes, masks.getD (List.replicate bytes.length 0xff), val.getD default⟩ with
         | none => none
         | some root =>
           some ⟨root,
             (bytes ++ masks.getD (List.replicate bytes.length 0xff)) :: t.sigs_dup⟩) := rfl
  rw [hshow]
  by_cases hdup : bytes ++ masks.getD (List.replicate bytes.length 0xff) ∈ t.sigs_dup
  · rw [if_pos hdup]
    rfl
  · rw [if_neg hdup]
    have hac := add_choice_total t hg
      ⟨bytes, masks.getD (List.replicate bytes.length 0xff), val.getD default⟩
      ⟨hrm.1, hb, hrm.2⟩
    cases hacv : add_choice t.base_node
        ⟨bytes, masks.getD (List.replicate bytes.length 0xff), val.getD default⟩ with
    | none =>
      rw [hacv] at hac
      cases hac
    | some root =>
      rfl

/-- C8, amended.  On an API-built index both loops are total, with
bounds proportional to pattern length and independent of the buffer:
the work-stack loop of a well-formed `add_signature` finishes within
its fuel `2 * len(bytes) + 4`, the walk loop of `get_signature`
finishes within `maxRootLen + 2` iterations for every buffer and
non-negative offset, every stack push extends the popped node's path by
exactly one child byte (so depth strictly increases along pushes), and
every child followed by the branch scan is exactly one level deeper
than its parent.  (The claim's bound of `len` of the longest registered
pattern for the step count is refuted separately.) -/
theorem c8_termination_bounds [Inhabited T] (t : SignatureDecisionTree T)
    (h : BuiltWF t)
    (bytes : List Nat) (masks : Option (List Nat)) (val : Option T)
    (hb : ∀ b ∈ bytes, b < 256)
    (hm : ∀ m, masks = some m → m.length = bytes.length ∧ ∀ b ∈ m, b < 256)
    (buf : List Nat) (off : Int) (hoff : 0 ≤ off) :
    (t.add_signature bytes masks val).isSome = true ∧
    (walkMatches t buf off).isSome = true ∧
    (∀ (n : TreeNode T) (p : List Nat) (sig : SignatureInfo T) (n' : TreeNode T)
        (ps : List (List Nat × SignatureInfo T)),
      stepAt n p sig = some (n', ps) → ∀ q ∈ ps, ∃ ch, q.1 = p ++ [ch]) ∧
    (∀ n c : TreeNode T,
      AllNodes (NodeOKR t.base_node.subtree_signatures) n →
      chooseLoop buf off n.depth n.choices n.subtree_signatures = some (some c) →
      c.depth = n.depth + 1) := by
  obtain ⟨hall, hwfR, hdepth⟩ := builtWF_good t h
  refine ⟨add_signature_total t h bytes masks val hb hm, ?_, ?_, ?_⟩
  · exact getSigLoop_isSome t.base_node.subtree_signatures hwfR buf off hoff
      (maxRootLen t + 2) t.base_node [] hall
      (by rw [hdepth]; exact Nat.le_refl _) (by rw [hdepth]; omega)
  · exact fun n p sig n' ps hst => stepAt_push_paths p n sig n' ps hst
  · intro n c hn hcl
    exact hn.self.2.2.2 _ (chooseLoop_mem buf off n.depth n.choices
      n.subtree_signatures c hcl) c rfl

/-- C8's step-count bound as stated is refuted: with the single pattern
`[0x00, 0x01]` registered (longest registered pattern length 2), adding
`[0x00, 0x02]` takes more than 2 pops of the work stack — with fuel 2
the loop is still unfinished, while fuel 5 completes it. -/
theorem c8_step_bound_counterexample :
    (addLoop 2 (singletonTree [0x00, 0x01] [0xff, 0xff] (0 : Nat)).base_node
      [([], ⟨[0x00, 0x02], [0xff, 0xff], (0 : Nat)⟩)]).isNone = true ∧
    (addLoop 5 (singletonTree [0x00, 0x01] [0xff, 0xff] (0 : Nat)).base_node
      [([], ⟨[0x00, 0x02], [0xff, 0xff], (0 : Nat)⟩)]).isSome = true := by
  constructor
  · decide
  · decide

/-- Witness for C8: registering a fresh one-byte pattern on the seed
index completes within the loop's fuel. -/
theorem c8_termination_bounds_witness :
    (seedTree.add_signature [0xaa] none none).isSome = true :=
  (c8_termination_bounds seedTree seedTree_builtWF [0xaa] none none (by decide)
    (fun m hm => by cases hm) B1 0 (by decide)).1

end Dectree
